import Mathlib

/-!
# Verification of backupbot's core subsystems

Shallow embedding of the version model (`src/backupbot/data_structures.py`),
the version rotation engine (`src/backupbot/versioning.py`), the ephemeral
container execution engine (`src/backupbot/docker_compose/container_utils.py`)
and the system pause coordinator (`src/backupbot/docker_compose/backup.py`),
together with proofs and refutations of the specification's claims about them.

Python `int` is modelled as `Int`, file names as `List Char`, raised
exceptions as `Except`.  Regex scanning for the only pattern the program uses
(`\d-\d\.`) is embedded as explicit fuelled scanners over `List Char` so that
every definition evaluates by kernel reduction.
-/

namespace Backupbot

/-! ## Version model (`data_structures.py`, class `FileVersion`) -/

/-- `FileVersion` from `data_structures.py`: a two-field version value.
Python `int` fields are modelled as `Int`. -/
structure FileVersion where
  major : Int
  minor : Int
deriving DecidableEq, Repr

/-- `FileVersion.increase_major`: `self.major += 1`. -/
def FileVersion.increase_major (v : FileVersion) : FileVersion :=
  { v with major := v.major + 1 }

/-- `FileVersion.increase_minor`: `self.minor += 1`. -/
def FileVersion.increase_minor (v : FileVersion) : FileVersion :=
  { v with minor := v.minor + 1 }

/-- `FileVersion.decrease_major`: raises `NotImplementedError` when
`self.major == 0`, otherwise `self.major -= 1`.  The raise happens before any
mutation, so on the error path the value is unchanged. -/
def FileVersion.decrease_major (v : FileVersion) : Except String FileVersion :=
  if v.major = 0 then .error "Cannot decrease major version below 0."
  else .ok { v with major := v.major - 1 }

/-- `FileVersion.decrease_minor`: raises `NotImplementedError` when
`self.minor == 0`, otherwise `self.minor -= 1`. -/
def FileVersion.decrease_minor (v : FileVersion) : Except String FileVersion :=
  if v.minor = 0 then .error "Cannot decrease minor version below 0."
  else .ok { v with minor := v.minor - 1 }

/-- `FileVersion.__eq__` (between two `FileVersion` values):
`self.major == other.major and self.minor == other.minor`. -/
def fvEq (a b : FileVersion) : Bool :=
  a.major == b.major && a.minor == b.minor

/-- `FileVersion.__lt__` (between two `FileVersion` values), exactly as in the
source: `if self.major < other.major: return True` and then
`return self.minor < other.minor` — note the minor comparison is reached
even when `self.major > other.major`. -/
def fvLt (a b : FileVersion) : Bool :=
  if a.major < b.major then true else a.minor < b.minor

/-- `FileVersion.__gt__` (between two `FileVersion` values), exactly as in the
source: `if self.major > other.major: return True` then
`return self.minor > other.minor`. -/
def fvGt (a b : FileVersion) : Bool :=
  if a.major > b.major then true else a.minor > b.minor

/-- The strict lexicographic order the specification describes
("Total order: compare major first, then minor").  Stated from the spec's
words, to be compared with the source's `fvLt`. -/
def specLexLt (a b : FileVersion) : Bool :=
  a.major < b.major || (a.major == b.major && a.minor < b.minor)

/-- The four mutating operations of the version model (`increase_major`,
`increase_minor`, `decrease_major`, `decrease_minor`). -/
inductive VersionOp where
  | incMajor
  | incMinor
  | decMajor
  | decMinor
deriving DecidableEq, Repr

/-- Apply one version operation; the decrements can raise. -/
def applyVersionOp (op : VersionOp) (v : FileVersion) : Except String FileVersion :=
  match op with
  | .incMajor => .ok v.increase_major
  | .incMinor => .ok v.increase_minor
  | .decMajor => v.decrease_major
  | .decMinor => v.decrease_minor

/-- Apply a sequence of version operations; a raise aborts the sequence
(the exception propagates, as in Python). -/
def applyVersionOps : List VersionOp → FileVersion → Except String FileVersion
  | [], v => .ok v
  | op :: ops, v =>
    match applyVersionOp op v with
    | .error e => .error e
    | .ok w => applyVersionOps ops w

/-! ## Backup item model and execution engine
(`docker_compose/container_utils.py`) -/

/-- `BackupItem` from `container_utils.py`:
`@dataclass(unsafe_hash=True)` with fields
`command` (`hash=False`), `file_name` (`hash=True`), `final_path`
(`hash=True`), `exec` (`hash=False`, default `None`).
`dataclass` generates `__eq__` over ALL fields (the `hash=` marker only
selects the fields of `__hash__`), so the derived decidable equality below —
over all four fields — is exactly the Python `==` between two items. -/
structure BackupItem where
  command : String
  file_name : String
  final_path : String
  exec : Option String
deriving DecidableEq, Repr

/-- The key the generated `__hash__` of `BackupItem` is computed from:
the tuple of the `hash=True` fields `(file_name, final_path)`. -/
def hashKey (it : BackupItem) : String × String :=
  (it.file_name, it.final_path)

/-- Python `==` between a `pathlib.Path` (the left operand
`backup_item.final_path`) and a `BackupItem` dictionary key: the dataclass
`__eq__` returns `NotImplemented` for operands of a different class, `Path`'s
`__eq__` likewise, so CPython falls back to identity, which is `False` for
these distinct objects.  Hence the membership test
`backup_item.final_path in backup_temporary_file_mapping` in `shell_backup`
compares unequal-typed values and is constantly false. -/
def pathEqBackupItem (_p : String) (_it : BackupItem) : Bool :=
  false

/-- Outcome environment for one `shell_backup` call: what the container
runtime does for each item.  `runError it` — the `docker run` / wait raises
`ContainerError`; `execTimesOut it` — the retrying `docker_exec_loop` exhausts
its timeout and raises `TimeoutError` (only consulted when `it.exec` is set);
`fileExists it` — after the container finishes, the expected output file
`bind_mount_dir/it.file_name` exists. -/
structure DockerEnv where
  runError : BackupItem → Bool
  execTimesOut : BackupItem → Bool
  fileExists : BackupItem → Bool

/-- The body of the per-item `try` block of `shell_backup`:
`.error ()` models an exception that escapes the `try` (only `TimeoutError`
from `docker_exec_loop` can — the `except` clause catches `ContainerError`
only); `.ok none` a failed item (logged, recorded absent); `.ok (some p)`
a staged file. -/
def processItem (env : DockerEnv) (bindMountDir : String) (it : BackupItem) :
    Except Unit (Option String) :=
  if env.runError it then
    -- `except ContainerError`: logged warning, mapping = None
    .ok none
  else if it.exec.isSome && env.execTimesOut it then
    -- `TimeoutError` from `docker_exec_loop` propagates out of the function
    .error ()
  else if env.fileExists it then
    .ok (some (bindMountDir ++ "/" ++ it.file_name))
  else
    -- container did not fail but no file was created: logged error, absent
    .ok none

/-- Python-dict assignment `d[k] = v` on an insertion-ordered association
list keyed by full `BackupItem` equality: update in place if the key is
present, else append. -/
def dictInsert (d : List (BackupItem × Option String)) (k : BackupItem)
    (v : Option String) : List (BackupItem × Option String) :=
  if d.any (fun kv => kv.1 == k) then
    d.map (fun kv => if kv.1 == k then (kv.1, v) else kv)
  else
    d ++ [(k, v)]

/-- Python-dict lookup by full `BackupItem` equality. -/
def dictFind (d : List (BackupItem × Option String)) (k : BackupItem) :
    Option (Option String) :=
  match d.find? (fun kv => kv.1 == k) with
  | none => none
  | some kv => some kv.2

/-- The item loop of `shell_backup`.  Returns the mapping dictionary together
with the list of items for which the "A mapping already exists" collision
error was logged (the `else` branch of the final membership test). -/
def shellBackupLoop (env : DockerEnv) (bindMountDir : String) :
    List BackupItem → List (BackupItem × Option String) → List BackupItem →
    Except Unit (List (BackupItem × Option String) × List BackupItem)
  | [], d, logged => .ok (d, logged.reverse)
  | it :: rest, d, logged =>
    match processItem env bindMountDir it with
    | .error e => .error e
    | .ok mapping =>
      -- `if not backup_item.final_path in backup_temporary_file_mapping:`
      if (d.any (fun kv => pathEqBackupItem it.final_path kv.1)) = false then
        shellBackupLoop env bindMountDir rest (dictInsert d it mapping) logged
      else
        shellBackupLoop env bindMountDir rest d (it :: logged)

/-- `shell_backup` from `container_utils.py`: runs every backup item through
the helper-container protocol and returns the item-to-staged-file mapping
(and, as a ghost result, the collision log). -/
def shell_backup (env : DockerEnv) (bindMountDir : String)
    (items : List BackupItem) :
    Except Unit (List (BackupItem × Option String) × List BackupItem) :=
  shellBackupLoop env bindMountDir items [] []

/-- The mapping value `shell_backup` records for one item when no exception
escapes its `try` block: `none` on a container error or a missing output
file, the staged path otherwise. -/
def itemValue (env : DockerEnv) (bindMountDir : String) (it : BackupItem) :
    Option String :=
  if env.runError it then none
  else if env.fileExists it then some (bindMountDir ++ "/" ++ it.file_name)
  else none

/-! ## System pause coordinator (`docker_compose/backup.py`,
`DockerComposeBackupAdapter.stopped_system`) -/

/-- Commands the pause coordinator can issue against the compose system. -/
inductive ComposeCmd where
  | stop
  | start
deriving DecidableEq, Repr

/-- Result of one run of the `stopped_system` context manager: the compose
commands issued, in order, and whether an exception propagated to the
caller. -/
structure PauseResult where
  commands : List ComposeCmd
  raised : Bool
deriving DecidableEq, Repr

/-- `stopped_system` from `backup.py`, a `@contextmanager` generator:
computes `system_running = any(name in running_containers for name in
storage_info.keys())`, issues `docker_compose_stop`, yields, and after the
block issues `docker_compose_start` only when `system_running` was true.
The `yield None` is NOT wrapped in `try/finally`, so when the caller's block
raises, CPython throws the exception into the generator at the yield point
and it propagates immediately: the line after the yield never runs and no
start command is issued.  `blockRaises` says whether the caller's block
raises. -/
def stopped_system (runningContainers serviceNames : List String)
    (blockRaises : Bool) : PauseResult :=
  let system_running := serviceNames.any (fun n => runningContainers.contains n)
  if blockRaises then
    { commands := [ComposeCmd.stop], raised := true }
  else
    { commands := [ComposeCmd.stop] ++ (if system_running then [ComposeCmd.start] else []),
      raised := false }

/-! ## Version rotation engine (`versioning.py`)

The only versioning pattern the program defines is
`VERSIONING_TO_PATTERN = {"d-d": re.compile("\d-\d\.")}`.  The regex
operations on this four-character pattern (`re.findall`, `re.sub`,
`re.search`) are embedded as fuelled scanners over `List Char`; matches of
`\d-\d\.` can never overlap (the character after the first digit must be `-`,
after the second digit `.`), so the scanners' left-to-right non-overlapping
walk finds every occurrence. -/

/-- The regex class `\d` (a decimal digit character, `'0'`…`'9'`). -/
def isDigitChar (c : Char) : Bool :=
  48 ≤ c.toNat && c.toNat ≤ 57

/-- Tries to match `\d-\d\.` at the head of the string; on success returns
the two digit characters (the numeric characters of the match, from which
`get_file_version` builds its result). -/
def matchHead : List Char → Option (Char × Char)
  | a :: b :: c :: d :: _ =>
    if isDigitChar a && b == '-' && isDigitChar c && d == '.' then some (a, c) else none
  | _ => none

/-- `re.findall` for the `\d-\d\.` pattern, fuelled: scan left to right,
emitting each match's digit pair and resuming after the matched text. -/
def findMatchesF : Nat → List Char → List (Char × Char)
  | 0, _ => []
  | _ + 1, [] => []
  | fuel + 1, c :: rest =>
    match matchHead (c :: rest) with
    | some pr => pr :: findMatchesF fuel (rest.drop 3)
    | none => findMatchesF fuel rest

/-- `re.findall(version_pattern, s)` (digit pairs of all matches, in order). -/
def findMatches (s : List Char) : List (Char × Char) :=
  findMatchesF s.length s

/-- `re.sub` for the `\d-\d\.` pattern, fuelled: every match is replaced by
`repl`, the rest is copied. -/
def subAllF (repl : List Char) : Nat → List Char → List Char
  | 0, s => s
  | _ + 1, [] => []
  | fuel + 1, c :: rest =>
    match matchHead (c :: rest) with
    | some _ => repl ++ subAllF repl fuel (rest.drop 3)
    | none => c :: subAllF repl fuel rest

/-- `re.sub(version_pattern, repl, s)`. -/
def subAll (repl : List Char) (s : List Char) : List Char :=
  subAllF repl s.length s

/-- `str.replace(old, new)`, fuelled: replace every non-overlapping
occurrence of `old`, left to right (`old` is always nonempty where the
engine calls this: it is `"." + file_ending`). -/
def strReplaceF (old new : List Char) : Nat → List Char → List Char
  | 0, s => s
  | _ + 1, [] => []
  | fuel + 1, c :: rest =>
    if old.isPrefixOf (c :: rest) then
      new ++ strReplaceF old new fuel ((c :: rest).drop old.length)
    else
      c :: strReplaceF old new fuel rest

/-- `s.replace(old, new)`. -/
def strReplace (old new s : List Char) : List Char :=
  strReplaceF old new s.length s

/-- Python `old in s` (substring test). -/
def occursB (old : List Char) : List Char → Bool
  | [] => old.isPrefixOf []
  | c :: rest => old.isPrefixOf (c :: rest) || occursB old rest

/-- The decimal digit characters: `digitChar n` for `n < 10` is `'0'`…`'9'`. -/
def digitChar (n : Nat) : Char := Char.ofNat (48 + n)

/-- Decimal rendering of a natural number (fuelled division loop). -/
def natCharsF : Nat → Nat → List Char
  | 0, n => [digitChar (n % 10)]
  | fuel + 1, n =>
    if n < 10 then [digitChar n] else natCharsF fuel (n / 10) ++ [digitChar (n % 10)]

/-- Decimal rendering of a natural number. -/
def natChars (n : Nat) : List Char := natCharsF n n

/-- Python `f"{i}"` for an `int`. -/
def intChars (i : Int) : List Char :=
  if i < 0 then '-' :: natChars i.natAbs else natChars i.toNat

/-- `f"{v.major}-{v.minor}"`. -/
def verDashStr (v : FileVersion) : List Char :=
  intChars v.major ++ '-' :: intChars v.minor

/-- Python `int(c)` for a digit character. -/
def charVal (c : Char) : Int := (c.toNat : Int) - 48

/-- `FileVersion(int(major_minor[0]), int(major_minor[1]))` from the digit
pair of a match. -/
def pairVersion (pr : Char × Char) : FileVersion :=
  ⟨charVal pr.1, charVal pr.2⟩

/-- `get_file_version` from `versioning.py` (for the `d-d` pattern): find all
matches, take the last one (`matches[::-1][0]`), and parse its two numeric
characters. -/
def get_file_version (name : List Char) : Option FileVersion :=
  match (findMatches name).getLast? with
  | none => none
  | some pr => some (pairVersion pr)

/-- A file as the rotation engine sees it: its name and its creation time
(`lstat().st_ctime`). -/
structure VFile where
  name : List Char
  ctime : Nat
deriving DecidableEq, Repr

/-- Stable insertion into a ctime-ascending list: the new element goes after
every element with a key not larger than later elements… precisely, before
the first element with a strictly larger-or-equal ordering position, matching
Python's stable `sorted`. -/
def insertByCtime (f : VFile) : List VFile → List VFile
  | [] => [f]
  | g :: rest => if g.ctime < f.ctime then g :: insertByCtime f rest else f :: g :: rest

/-- `sorted(files, key=lambda x: x.lstat().st_ctime)`: stable ascending sort
(oldest first). -/
def sortByCtime : List VFile → List VFile
  | [] => []
  | f :: rest => insertByCtime f (sortByCtime rest)

/-- The fold inside `get_max_version_number`: the accumulator `mx` starts as
`None`; unversioned files are skipped; a candidate replaces the accumulator
when the source's `__gt__` (`fvGt`) says it is greater. -/
def maxFold : List VFile → Option FileVersion → Option FileVersion
  | [], mx => mx
  | f :: rest, mx =>
    match get_file_version f.name with
    | none => maxFold rest mx
    | some v =>
      match mx with
      | none => maxFold rest (some v)
      | some m => if fvGt v m then maxFold rest (some v) else maxFold rest (some m)

/-- `get_max_version_number` from `versioning.py`. -/
def get_max_version_number (files : List VFile) : Option FileVersion :=
  maxFold files none

/-- The per-file name computation of `create_target_names`: if
`re.search(version_pattern, file.name)` finds nothing the file is new and the
version is spliced in before the suffix with
`file.name.replace("." + file_ending, "-major-minor." + file_ending)`;
otherwise every embedded version is substituted via
`re.sub(version_pattern, "major-minor.", file.name)`. -/
def updated_name (E : List Char) (name : List Char) (v : FileVersion) : List Char :=
  if (findMatches name).isEmpty then
    strReplace ('.' :: E) ('-' :: (verDashStr v ++ '.' :: E)) name
  else
    subAll (verDashStr v ++ ['.']) name

/-- One entry of the renaming plan.  `oldName`/`newName` are what the source
returns; `ver` (the version stamped into `newName`) and `ctime` (unchanged by
a rename in this model) are ghost fields recorded for the proofs. -/
structure RenameEntry where
  oldName : List Char
  newName : List Char
  ver : FileVersion
  ctime : Nat
deriving DecidableEq, Repr

/-- The `for i in range(num_files)` loop of `create_target_names`: pair each
file (oldest first) with the current version, and after every file except the
last decrement the rotating axis (`decrease_major` / `decrease_minor`), whose
failure propagates as an exception. -/
def ctnLoop (E : List Char) (major : Bool) :
    List VFile → FileVersion → Except String (List RenameEntry)
  | [], _ => .ok []
  | [f], v => .ok [⟨f.name, updated_name E f.name v, v, f.ctime⟩]
  | f :: g :: rest, v =>
    match (if major then v.decrease_major else v.decrease_minor) with
    | .error e => .error e
    | .ok v2 =>
      match ctnLoop E major (g :: rest) v2 with
      | .error e => .error e
      | .ok tl => .ok (⟨f.name, updated_name E f.name v, v, f.ctime⟩ :: tl)

/-- `create_target_names` from `versioning.py`, with the plan entries carrying
their ghost fields: empty list short-circuit; sort ascending by creation
time; compute the maximum embedded version; start from `FileVersion(0, 0)`
when there is none, otherwise overwrite the rotating axis with
`len(files) - 1`; then run the renaming loop. -/
def create_target_entries (files : List VFile) (E : List Char) (major : Bool) :
    Except String (List RenameEntry) :=
  if files.length = 0 then .ok []
  else
    let sorted := sortByCtime files
    let version : FileVersion :=
      match get_max_version_number sorted with
      | none => ⟨0, 0⟩
      | some v =>
        if major then ⟨(files.length : Int) - 1, v.minor⟩
        else ⟨v.major, (files.length : Int) - 1⟩
    ctnLoop E major sorted version

/-- `create_target_names` as the source returns it: the `(old, new)` name
pairs. -/
def create_target_names (files : List VFile) (E : List Char) (major : Bool) :
    Except String (List (List Char × List Char)) :=
  match create_target_entries files E major with
  | .error e => .error e
  | .ok l => .ok (l.map (fun e => (e.oldName, e.newName)))

/-- The file set on disk after applying a renaming plan (each old path
renamed to its new path; creation order unchanged). -/
def renamedFiles (l : List RenameEntry) : List VFile :=
  l.map (fun e => ⟨e.newName, e.ctime⟩)

/-- The rotating axis of a version: major when `major` rotation was
requested, minor otherwise. -/
def axisVal (major : Bool) (v : FileVersion) : Int :=
  if major then v.major else v.minor

/-- Ghost denotation of one rotating-axis decrement (no error tracking). -/
def stepDown (major : Bool) (v : FileVersion) : FileVersion :=
  if major then ⟨v.major - 1, v.minor⟩ else ⟨v.major, v.minor - 1⟩

/-- The version the loop stamps into the file at position `i` (oldest first):
the start version with the rotating axis lowered by `i`. -/
def verAt (major : Bool) (v : FileVersion) (i : Nat) : FileVersion :=
  if major then ⟨v.major - i, v.minor⟩ else ⟨v.major, v.minor - i⟩

/-- Ghost denotation of the renaming loop: the entries `ctnLoop` produces
when no decrement fails. -/
def specEntries (E : List Char) (major : Bool) :
    List VFile → FileVersion → List RenameEntry
  | [], _ => []
  | f :: rest, v =>
    ⟨f.name, updated_name E f.name v, v, f.ctime⟩ ::
      specEntries E major rest (stepDown major v)

/-- A four-character window of the versioning pattern with the two given
digit characters: `d₁-d₂.` -/
def patStr (d1 d2 : Char) : List Char := [d1, '-', d2, '.']

/-- The non-rotating axis of a version. -/
def nonAxisVal (major : Bool) (v : FileVersion) : Int :=
  if major then v.minor else v.major

/-- The new names a rotation pass produces, in age order. -/
def rotateNames (files : List VFile) (E : List Char) (major : Bool) :
    Except String (List (List Char)) :=
  match create_target_entries files E major with
  | .error e => .error e
  | .ok l => .ok (l.map (fun e => e.newName))

/-- The new names produced by rotating, applying the renames, and rotating
the resulting (unchanged) file set again. -/
def rotateTwiceNames (files : List VFile) (E : List Char) (major : Bool) :
    Except String (List (List Char)) :=
  match create_target_entries files E major with
  | .error e => .error e
  | .ok l => rotateNames (renamedFiles l) E major

/-- Eleven files — ten unversioned plus one versioned — used to exercise the
rotation engine past the single-digit range of its version pattern. -/
def c8files : List VFile :=
  [⟨"b1.t".toList, 0⟩, ⟨"b2.t".toList, 1⟩, ⟨"b3.t".toList, 2⟩,
   ⟨"b4.t".toList, 3⟩, ⟨"b5.t".toList, 4⟩, ⟨"b6.t".toList, 5⟩,
   ⟨"b7.t".toList, 6⟩, ⟨"b8.t".toList, 7⟩, ⟨"b9.t".toList, 8⟩,
   ⟨"c0.t".toList, 9⟩, ⟨"a-0-0.t".toList, 10⟩]

/-! ## Theorems: version model (claims C5, C9) -/

/-- Claim C5, counterexample: with `a = 1-0` and `b = 0-5` the source's
`__lt__` and `__gt__` both return `True`, so the comparison is not the
lexicographic total order the claim states (it violates asymmetry). -/
theorem C5_counterexample :
    fvLt ⟨1, 0⟩ ⟨0, 5⟩ = true ∧ fvGt ⟨1, 0⟩ ⟨0, 5⟩ = true := by
  decide

/-- Claim C5 (amended): `__lt__` compares the minors whenever the major
comparison fails, so only on versions of equal major does it agree with the
spec's lexicographic order; restricted to equal majors the comparisons form a
strict total order (asymmetry, transitivity, totality via `__eq__`). -/
theorem C5_amended (a b c : FileVersion) (hab : a.major = b.major)
    (hbc : b.major = c.major) :
    fvLt a b = specLexLt a b ∧
    fvGt a b = specLexLt b a ∧
    ¬(fvLt a b = true ∧ fvGt a b = true) ∧
    (fvLt a b = true → fvLt b c = true → fvLt a c = true) ∧
    (fvLt a b = false → fvGt a b = false → fvEq a b = true) := by
  refine ⟨?_, ?_, ?_, ?_, ?_⟩
  · simp [fvLt, specLexLt, hab]
  · simp [fvGt, specLexLt, hab, gt_iff_lt]
  · simp [fvLt, fvGt, hab]; omega
  · simp [fvLt, hab, hbc]; omega
  · simp [fvLt, fvGt, fvEq, hab, hbc]; omega

/-- Claim C5, witness for the amended theorem at `2-1 < 2-3 < 2-4`. -/
theorem C5_witness :
    fvLt ⟨2, 1⟩ ⟨2, 3⟩ = specLexLt ⟨2, 1⟩ ⟨2, 3⟩ ∧
    fvGt ⟨2, 1⟩ ⟨2, 3⟩ = specLexLt ⟨2, 3⟩ ⟨2, 1⟩ ∧
    ¬(fvLt ⟨2, 1⟩ ⟨2, 3⟩ = true ∧ fvGt ⟨2, 1⟩ ⟨2, 3⟩ = true) ∧
    (fvLt ⟨2, 1⟩ ⟨2, 3⟩ = true → fvLt ⟨2, 3⟩ ⟨2, 4⟩ = true → fvLt ⟨2, 1⟩ ⟨2, 4⟩ = true) ∧
    (fvLt ⟨2, 1⟩ ⟨2, 3⟩ = false → fvGt ⟨2, 1⟩ ⟨2, 3⟩ = false → fvEq ⟨2, 1⟩ ⟨2, 3⟩ = true) :=
  C5_amended ⟨2, 1⟩ ⟨2, 3⟩ ⟨2, 4⟩ (by decide) (by decide)

/-- Helper for claim C9: the non-negativity of both fields is preserved by
every successful sequence of version operations (a decrement of a field at 0
raises instead of producing a value). -/
theorem applyVersionOps_nonneg :
    ∀ (ops : List VersionOp) (v w : FileVersion), 0 ≤ v.major → 0 ≤ v.minor →
      applyVersionOps ops v = .ok w → 0 ≤ w.major ∧ 0 ≤ w.minor := by
  intro ops
  induction ops with
  | nil =>
    intro v w hM hm h
    simp only [applyVersionOps] at h
    cases h
    exact ⟨hM, hm⟩
  | cons op rest ih =>
    intro v w hM hm h
    simp only [applyVersionOps] at h
    cases hop : applyVersionOp op v with
    | error e => rw [hop] at h; cases h
    | ok v2 =>
      rw [hop] at h
      refine ih v2 w ?_ ?_ h
      · cases op <;>
          simp only [applyVersionOp, FileVersion.increase_major,
            FileVersion.increase_minor, FileVersion.decrease_major,
            FileVersion.decrease_minor] at hop
        · cases hop; simp; omega
        · cases hop; simpa using hM
        · by_cases h0 : v.major = 0
          · simp [h0] at hop
          · simp [h0] at hop; cases hop; simp; omega
        · by_cases h0 : v.minor = 0
          · simp [h0] at hop
          · simp [h0] at hop; cases hop; simpa using hM
      · cases op <;>
          simp only [applyVersionOp, FileVersion.increase_major,
            FileVersion.increase_minor, FileVersion.decrease_major,
            FileVersion.decrease_minor] at hop
        · cases hop; simpa using hm
        · cases hop; simp; omega
        · by_cases h0 : v.major = 0
          · simp [h0] at hop
          · simp [h0] at hop; cases hop; simpa using hm
        · by_cases h0 : v.minor = 0
          · simp [h0] at hop
          · simp [h0] at hop; cases hop; simp; omega

/-- Claim C9: decrementing a field that is 0 raises (`error`, never a
clamped value — the raise happens before any mutation, so the version is
unchanged), and across every successful sequence of operations starting from
a version with non-negative fields, both fields stay non-negative. -/
theorem C9_decrement_safety (v w : FileVersion) (ops : List VersionOp)
    (hM : 0 ≤ v.major) (hm : 0 ≤ v.minor) :
    (v.major = 0 → v.decrease_major = .error "Cannot decrease major version below 0.") ∧
    (v.minor = 0 → v.decrease_minor = .error "Cannot decrease minor version below 0.") ∧
    (applyVersionOps ops v = .ok w → 0 ≤ w.major ∧ 0 ≤ w.minor) := by
  refine ⟨?_, ?_, applyVersionOps_nonneg ops v w hM hm⟩
  · intro h0; simp [FileVersion.decrease_major, h0]
  · intro h0; simp [FileVersion.decrease_minor, h0]

/-- Claim C9, witness: at version `0-0`, `decrease_major` errors, and the
sequence `[increase_major]` yields `1-0` with non-negative fields. -/
theorem C9_witness :
    (FileVersion.mk 0 0).decrease_major =
      .error "Cannot decrease major version below 0." ∧
    ((0 : Int) ≤ (1 : Int) ∧ (0 : Int) ≤ (0 : Int)) :=
  ⟨(C9_decrement_safety ⟨0, 0⟩ ⟨1, 0⟩ [] (by decide) (by decide)).1 rfl,
   (C9_decrement_safety ⟨0, 0⟩ ⟨1, 0⟩ [VersionOp.incMajor] (by decide) (by decide)).2.2 rfl⟩

/-! ## Theorems: backup item model (claim C6) -/

/-- Claim C6, counterexample: two items with equal `file_name` and equal
`final_path` but different commands are NOT equal under the dataclass
`__eq__` (which compares all four fields), contradicting the claim that
equality is determined by `(outputFileName, finalDirectory)` alone. -/
theorem C6_counterexample :
    (BackupItem.mk "tar A" "f.tar.gz" "/dest" none).file_name =
      (BackupItem.mk "tar B" "f.tar.gz" "/dest" none).file_name ∧
    (BackupItem.mk "tar A" "f.tar.gz" "/dest" none).final_path =
      (BackupItem.mk "tar B" "f.tar.gz" "/dest" none).final_path ∧
    BackupItem.mk "tar A" "f.tar.gz" "/dest" none ≠
      BackupItem.mk "tar B" "f.tar.gz" "/dest" none := by
  decide

/-- Claim C6 (amended): `BackupItem` equality compares all four fields
(command, file name, final path, exec command); the pair
`(file_name, final_path)` determines only the hash key, so equal items always
share a hash key but the converse fails. -/
theorem C6_amended (a b : BackupItem) :
    (a = b ↔ (a.command = b.command ∧ a.file_name = b.file_name ∧
              a.final_path = b.final_path ∧ a.exec = b.exec)) ∧
    (a = b → hashKey a = hashKey b) := by
  constructor
  · constructor
    · intro h; cases h; exact ⟨rfl, rfl, rfl, rfl⟩
    · intro ⟨h1, h2, h3, h4⟩
      cases a; cases b
      simp_all
  · intro h; cases h; rfl

/-- Claim C6, witness for the amended theorem at a concrete pair of items. -/
theorem C6_witness :
    BackupItem.mk "c" "f" "p" none = BackupItem.mk "c" "f" "p" none ∧
    hashKey (BackupItem.mk "c" "f" "p" none) = hashKey (BackupItem.mk "c" "f" "p" none) := by
  have h := C6_amended (BackupItem.mk "c" "f" "p" none) (BackupItem.mk "c" "f" "p" none)
  exact ⟨h.1.mpr ⟨rfl, rfl, rfl, rfl⟩, h.2 rfl⟩

/-! ## Theorems: execution engine bookkeeping (claim C2) -/

/-- Claim C2, evidence of the code bug: for a batch of two items with the
same `(file_name, final_path)` (hence identical under the claim's identity)
but different commands, the returned mapping holds TWO entries and no
collision is ever logged — the membership test
`backup_item.final_path in backup_temporary_file_mapping` compares a path
against `BackupItem` keys and never succeeds, so the collision branch is
dead code. -/
theorem C2_evidence :
    shell_backup
      ⟨fun _ => false, fun _ => false, fun _ => true⟩ "/tmp"
      [⟨"cmd1", "f", "dir", none⟩, ⟨"cmd2", "f", "dir", none⟩] =
    .ok ([(⟨"cmd1", "f", "dir", none⟩, some "/tmp/f"),
          (⟨"cmd2", "f", "dir", none⟩, some "/tmp/f")], []) := by
  rfl

/-! ## Theorems: pause coordinator (claims C3, C4) -/

/-- Claim C3, evidence of the code bug: with service `service_a` observed
running and a block that raises, the coordinator issues only the stop
command — the `yield` is not protected by `try/finally`, so the restart
never happens on the exceptional exit path. -/
theorem C3_evidence :
    stopped_system ["service_a"] ["service_a"] true =
      { commands := [ComposeCmd.stop], raised := true } ∧
    ComposeCmd.start ∉ (stopped_system ["service_a"] ["service_a"] true).commands := by
  decide

/-- Claim C4, counterexample: service `A` is observed running, yet after a
raising block no start command is issued, refuting "restarts if and only if
it was observed running" as stated over every exit path. -/
theorem C4_counterexample :
    (["A"].any (fun n => (["A"] : List String).contains n)) = true ∧
    ComposeCmd.start ∉ (stopped_system ["A"] ["A"] true).commands := by
  decide

/-- Claim C4 (amended): the coordinator issues the start command iff the
block completed without raising AND some given service name was among the
running container names observed beforehand; a system that was not observed
running is left stopped on every exit path. -/
theorem C4_amended (running services : List String) (raises : Bool) :
    (ComposeCmd.start ∈ (stopped_system running services raises).commands ↔
      (raises = false ∧ services.any (fun n => running.contains n) = true)) ∧
    (services.any (fun n => running.contains n) = false →
      ComposeCmd.start ∉ (stopped_system running services raises).commands) := by
  constructor
  · cases raises <;>
      simp only [stopped_system] <;>
      by_cases h : services.any (fun n => running.contains n) = true <;>
      simp_all
  · intro h
    cases raises <;> simp_all [stopped_system]

/-- Claim C4, witness for the amended theorem: with no given service
running, the system is left stopped. -/
theorem C4_witness :
    (["svc_b"].any (fun n => (["svc_a"] : List String).contains n) = false) ∧
    ComposeCmd.start ∉ (stopped_system ["svc_a"] ["svc_b"] false).commands :=
  ⟨by decide, (C4_amended ["svc_a"] ["svc_b"] false).2 (by decide)⟩

/-! ## Theorems: execution engine, per-item failure isolation (claim C7) -/

/-- Helper: when the retrying exec cannot time out for an item, its `try`
block completes and the recorded value is `itemValue`. -/
theorem processItem_ok (env : DockerEnv) (bind : String) (it : BackupItem)
    (h : it.exec.isSome = true → env.execTimesOut it = false) :
    processItem env bind it = .ok (itemValue env bind it) := by
  have hc : (it.exec.isSome && env.execTimesOut it) = false := by
    by_cases h2 : it.exec.isSome = true
    · simp [h2, h h2]
    · simp only [Bool.not_eq_true] at h2; simp [h2]
  by_cases h1 : env.runError it = true
  · simp [processItem, itemValue, h1, hc]
  · by_cases h3 : env.fileExists it = true <;>
      simp [processItem, itemValue, h1, hc, h3]

/-- Helper: a dictionary assignment makes the assigned key's lookup return
the assigned value. -/
theorem find?_valueUpdate (d : List (BackupItem × Option String))
    (k x : BackupItem) (v : Option String) :
    (d.map (fun kv => if kv.1 == k then (kv.1, v) else kv)).find?
        (fun kv => kv.1 == x)
      = Option.map (fun kv => if kv.1 == k then (kv.1, v) else kv)
          (d.find? (fun kv => kv.1 == x)) := by
  induction d with
  | nil => rfl
  | cons kv rest ih =>
    have hfst : (if (kv.1 == k) = true then (kv.1, v) else kv).1 = kv.1 := by
      by_cases hkk : (kv.1 == k) = true <;> simp [hkk]
    simp only [List.map_cons, List.find?_cons, hfst]
    by_cases hkx : (kv.1 == x) = true
    · simp only [hkx]; rfl
    · simp only [hkx]
      exact ih

theorem dictFind_insert_self (d : List (BackupItem × Option String))
    (k : BackupItem) (v : Option String) :
    dictFind (dictInsert d k v) k = some v := by
  unfold dictInsert
  by_cases h : d.any (fun kv => kv.1 == k) = true
  · simp only [h, if_true]
    unfold dictFind
    rw [find?_valueUpdate]
    have hsome : (d.find? (fun kv => kv.1 == k)).isSome := by
      rw [List.find?_isSome]
      rw [List.any_eq_true] at h
      exact h
    cases hf : d.find? (fun kv => kv.1 == k) with
    | none => rw [hf] at hsome; simp at hsome
    | some kv =>
      have hkk : kv.1 = k := by
        have h2 := List.find?_some hf
        simpa using h2
      simp [hkk]
  · simp only [Bool.not_eq_true] at h
    simp only [h, Bool.false_eq_true, if_false]
    have hnone : d.find? (fun kv => kv.1 == k) = none := by
      rw [List.find?_eq_none]
      intro x hx
      rw [List.any_eq_false] at h
      exact h x hx
    simp [dictFind, List.find?_append, hnone]

/-- Helper: a dictionary assignment leaves every other key's lookup
unchanged. -/
theorem dictFind_insert_other (d : List (BackupItem × Option String))
    (k x : BackupItem) (v : Option String) (hne : x ≠ k) :
    dictFind (dictInsert d k v) x = dictFind d x := by
  unfold dictInsert
  by_cases h : d.any (fun kv => kv.1 == k) = true
  · simp only [h, if_true]
    unfold dictFind
    rw [find?_valueUpdate]
    cases hf : d.find? (fun kv => kv.1 == x) with
    | none => rfl
    | some kv =>
      have hkvx : kv.1 = x := by
        have := List.find?_some hf
        simpa using this
      have hkk : ¬(kv.1 = k) := by rw [hkvx]; exact hne
      simp [hkk]
  · simp only [Bool.not_eq_true] at h
    simp only [h, Bool.false_eq_true, if_false]
    have hx1 : List.find? (fun kv => kv.1 == x) [(k, v)] = none := by
      simp [List.find?_cons, (by simpa using Ne.symm hne : (k == x) = false)]
    simp [dictFind, List.find?_append, hx1]

/-- Helper: when no item of the batch can hit the exec timeout, the item
loop of `shell_backup` completes and its final dictionary maps every
processed item to `itemValue` (the collision test never fires, so every item
is recorded, later occurrences of a fully identical item overwriting with
the same value). -/
theorem shellBackupLoop_spec (env : DockerEnv) (bind : String) :
    ∀ (items : List BackupItem) (d : List (BackupItem × Option String))
      (lg : List BackupItem),
      (∀ it ∈ items, it.exec.isSome = true → env.execTimesOut it = false) →
      ∃ d2 lg2, shellBackupLoop env bind items d lg = .ok (d2, lg2) ∧
        ∀ x : BackupItem, dictFind d2 x =
          if x ∈ items then some (itemValue env bind x) else dictFind d x := by
  intro items
  induction items with
  | nil =>
    intro d lg _
    exact ⟨d, lg.reverse, rfl, fun x => by simp⟩
  | cons it rest ih =>
    intro d lg hto
    have hp : processItem env bind it = .ok (itemValue env bind it) :=
      processItem_ok env bind it (hto it (by simp))
    have hmem : (d.any (fun kv => pathEqBackupItem it.final_path kv.1)) = false := by
      simp [pathEqBackupItem]
    have step : shellBackupLoop env bind (it :: rest) d lg =
        shellBackupLoop env bind rest (dictInsert d it (itemValue env bind it)) lg := by
      simp only [shellBackupLoop, hp, hmem]
      simp
    obtain ⟨d2, lg2, hrun, hspec⟩ :=
      ih (dictInsert d it (itemValue env bind it)) lg
        (fun y hy => hto y (by simp [hy]))
    refine ⟨d2, lg2, step ▸ hrun, ?_⟩
    intro x
    rw [hspec x]
    by_cases hx : x ∈ rest
    · simp [hx]
    · by_cases hxit : x = it
      · subst hxit
        simp [hx, dictFind_insert_self]
      · simp [hx, hxit, dictFind_insert_other d it x _ hxit]

/-- Claim C7: in a batch where the exec-retry timeout never fires, the
engine returns normally (no exception escapes), every item of the batch gets
an entry in the returned mapping, and every item whose container ran without
a container error but produced no output file is recorded with an absent
value rather than raising. -/
theorem C7_missing_output_is_failure (env : DockerEnv) (bind : String)
    (items : List BackupItem)
    (hto : ∀ it ∈ items, it.exec.isSome = true → env.execTimesOut it = false) :
    ∃ d logged, shell_backup env bind items = .ok (d, logged) ∧
      (∀ it ∈ items, (dictFind d it).isSome = true) ∧
      (∀ it ∈ items, env.runError it = false → env.fileExists it = false →
        dictFind d it = some none) := by
  obtain ⟨d2, lg2, hrun, hspec⟩ := shellBackupLoop_spec env bind items [] [] hto
  refine ⟨d2, lg2, hrun, ?_, ?_⟩
  · intro it hit
    rw [hspec it]
    simp [hit]
  · intro it hit h1 h2
    rw [hspec it]
    simp [hit, itemValue, h1, h2]

/-- Claim C7, witness: a single item whose container runs but creates no
file is mapped to an absent value and the batch returns normally. -/
theorem C7_witness :
    ∃ d logged,
      shell_backup ⟨fun _ => false, fun _ => false, fun _ => false⟩ "/tmp"
        [⟨"tar", "f", "dir", none⟩] = .ok (d, logged) ∧
      (∀ it ∈ [(⟨"tar", "f", "dir", none⟩ : BackupItem)], (dictFind d it).isSome = true) ∧
      (∀ it ∈ [(⟨"tar", "f", "dir", none⟩ : BackupItem)],
        (⟨fun _ => false, fun _ => false, fun _ => false⟩ : DockerEnv).runError it = false →
        (⟨fun _ => false, fun _ => false, fun _ => false⟩ : DockerEnv).fileExists it = false →
        dictFind d it = some none) :=
  C7_missing_output_is_failure ⟨fun _ => false, fun _ => false, fun _ => false⟩
    "/tmp" [⟨"tar", "f", "dir", none⟩]
    (fun _ _ _ => rfl)

/-! ## Theorems: version parsing (claim C10) -/

/-- Helper: a successful head match yields two digit characters and exposes
the matched shape `d :: '-' :: d :: '.' :: rest`. -/
theorem matchHead_some_shape : ∀ {s : List Char} {pr : Char × Char},
    matchHead s = some pr →
    isDigitChar pr.1 = true ∧ isDigitChar pr.2 = true ∧
    ∃ rest, s = pr.1 :: '-' :: pr.2 :: '.' :: rest := by
  intro s pr h
  match s with
  | [] => simp [matchHead] at h
  | [a] => simp [matchHead] at h
  | [a, b] => simp [matchHead] at h
  | [a, b, c] => simp [matchHead] at h
  | a :: b :: c :: d :: rest =>
    simp only [matchHead] at h
    by_cases hc : (isDigitChar a && b == '-' && isDigitChar c && d == '.') = true
    · rw [if_pos hc] at h
      cases h
      simp only [Bool.and_eq_true, beq_iff_eq] at hc
      obtain ⟨⟨⟨h1, h2⟩, h3⟩, h4⟩ := hc
      exact ⟨h1, h3, rest, by rw [h2, h4]⟩
    · rw [if_neg hc] at h
      cases h

/-- Helper: every digit pair emitted by the match scanner consists of digit
characters, for any fuel. -/
theorem findMatchesF_digits : ∀ (fuel : Nat) (s : List Char) (pr : Char × Char),
    pr ∈ findMatchesF fuel s →
    isDigitChar pr.1 = true ∧ isDigitChar pr.2 = true := by
  intro fuel
  induction fuel with
  | zero => intro s pr h; simp [findMatchesF] at h
  | succ n ih =>
    intro s pr h
    match s with
    | [] => simp [findMatchesF] at h
    | c :: rest =>
      simp only [findMatchesF] at h
      cases hm : matchHead (c :: rest) with
      | some pr2 =>
        rw [hm] at h
        rcases List.mem_cons.mp h with h1 | h1
        · subst h1
          exact ⟨(matchHead_some_shape hm).1, (matchHead_some_shape hm).2.1⟩
        · exact ih _ _ h1
      | none =>
        rw [hm] at h
        exact ih _ _ h

/-- Helper: any version parsed back from a file name by `get_file_version`
has both components in `0`…`9`. -/
theorem gfv_bounds (name : List Char) (v : FileVersion)
    (h : get_file_version name = some v) :
    0 ≤ v.major ∧ v.major ≤ 9 ∧ 0 ≤ v.minor ∧ v.minor ≤ 9 := by
  unfold get_file_version at h
  cases hl : (findMatches name).getLast? with
  | none => rw [hl] at h; cases h
  | some pr =>
    rw [hl] at h
    cases h
    have hmem : pr ∈ findMatches name := List.mem_of_mem_getLast? hl
    have hd := findMatchesF_digits _ _ _ hmem
    have h1 := hd.1
    have h2 := hd.2
    simp only [isDigitChar, Bool.and_eq_true, decide_eq_true_eq] at h1 h2
    simp only [pairVersion, charVal]
    omega

/-- Claim C10: for any file name, `get_file_version` with the `d-d` pattern
returns no version or a version whose major and minor are each a single
decimal digit (0 through 9): the pattern matches exactly one digit per
component, bounding every version the rotation engine reads back from
disk. -/
theorem C10_single_digit_parse (name : List Char) (v : FileVersion)
    (h : get_file_version name = some v) :
    0 ≤ v.major ∧ v.major ≤ 9 ∧ 0 ≤ v.minor ∧ v.minor ≤ 9 :=
  gfv_bounds name v h

/-- Claim C10, witness: the name `a12-3.txt` (multi-digit component `12`)
parses to major 2, minor 3 — the last matched window is `2-3.`, not the full
`12-3` — and the bounds hold there. -/
theorem C10_witness :
    get_file_version ("a12-3.txt".toList) = some ⟨2, 3⟩ ∧
    (0 ≤ (FileVersion.mk 2 3).major ∧ (FileVersion.mk 2 3).major ≤ 9 ∧
     0 ≤ (FileVersion.mk 2 3).minor ∧ (FileVersion.mk 2 3).minor ≤ 9) :=
  ⟨rfl, C10_single_digit_parse ("a12-3.txt".toList) ⟨2, 3⟩ rfl⟩

/-! ## Theorems: rotation engine, dense rank assignment (claim C1) -/

theorem insertByCtime_length (f : VFile) (l : List VFile) :
    (insertByCtime f l).length = l.length + 1 := by
  induction l with
  | nil => rfl
  | cons g rest ih =>
    by_cases h : g.ctime < f.ctime <;> simp [insertByCtime, h, ih]

theorem sortByCtime_length (l : List VFile) :
    (sortByCtime l).length = l.length := by
  induction l with
  | nil => rfl
  | cons f rest ih => simp [sortByCtime, insertByCtime_length, ih]

theorem insertByCtime_mem (x f : VFile) (l : List VFile) :
    x ∈ insertByCtime f l ↔ x = f ∨ x ∈ l := by
  induction l with
  | nil => simp [insertByCtime]
  | cons g rest ih =>
    by_cases h : g.ctime < f.ctime
    · simp only [insertByCtime, h, if_true, List.mem_cons, ih]
      tauto
    · simp [insertByCtime, h]

theorem insertByCtime_pairwise (f : VFile) (l : List VFile)
    (h : l.Pairwise (fun a b => a.ctime ≤ b.ctime)) :
    (insertByCtime f l).Pairwise (fun a b => a.ctime ≤ b.ctime) := by
  induction l with
  | nil => simp [insertByCtime]
  | cons g rest ih =>
    rcases List.pairwise_cons.mp h with ⟨hg, hrest⟩
    by_cases hc : g.ctime < f.ctime
    · simp only [insertByCtime, hc, if_true]
      rw [List.pairwise_cons]
      refine ⟨?_, ih hrest⟩
      intro x hx
      rcases (insertByCtime_mem x f rest).mp hx with h1 | h1
      · subst h1; omega
      · exact hg x h1
    · simp only [insertByCtime, hc, if_false]
      rw [List.pairwise_cons]
      refine ⟨?_, h⟩
      intro x hx
      rcases List.mem_cons.mp hx with h1 | h1
      · subst h1; omega
      · have := hg x h1; omega

theorem sortByCtime_pairwise (l : List VFile) :
    (sortByCtime l).Pairwise (fun a b => a.ctime ≤ b.ctime) := by
  induction l with
  | nil => simp [sortByCtime]
  | cons f rest ih => exact insertByCtime_pairwise f _ ih

/-- Helper: when the start version's rotating axis equals `count - 1`, no
decrement in the loop ever hits zero, so the loop succeeds and equals its
ghost denotation. -/
theorem ctnLoop_eq_spec (E : List Char) (maj : Bool) :
    ∀ (fs : List VFile) (v : FileVersion),
      axisVal maj v = (fs.length : Int) - 1 →
      ctnLoop E maj fs v = .ok (specEntries E maj fs v) := by
  intro fs
  induction fs with
  | nil => intro v _; rfl
  | cons f rest ih =>
    intro v hv
    match rest with
    | [] => rfl
    | g :: rest2 =>
      have hax : axisVal maj v = (rest2.length : Int) + 1 := by
        rw [hv]; simp
      have hne0 : axisVal maj v ≠ 0 := by rw [hax]; omega
      have hdec : (if maj then v.decrease_major else v.decrease_minor) =
          .ok (stepDown maj v) := by
        cases maj
        · have hm : v.minor ≠ 0 := by simpa [axisVal] using hne0
          simp [FileVersion.decrease_minor, stepDown, hm]
        · have hm : v.major ≠ 0 := by simpa [axisVal] using hne0
          simp [FileVersion.decrease_major, stepDown, hm]
      have hax2 : axisVal maj (stepDown maj v) = ((g :: rest2).length : Int) - 1 := by
        cases maj <;> simp [axisVal, stepDown] at hax ⊢ <;> omega
      have hrec := ih (stepDown maj v) hax2
      simp only [ctnLoop, hdec, hrec, specEntries]

theorem specEntries_length (E : List Char) (maj : Bool) :
    ∀ (fs : List VFile) (v : FileVersion),
      (specEntries E maj fs v).length = fs.length := by
  intro fs
  induction fs with
  | nil => intro v; rfl
  | cons f rest ih => intro v; simp [specEntries, ih]

theorem specEntries_map_oldName (E : List Char) (maj : Bool) :
    ∀ (fs : List VFile) (v : FileVersion),
      (specEntries E maj fs v).map (fun e => e.oldName) = fs.map (fun f => f.name) := by
  intro fs
  induction fs with
  | nil => intro v; rfl
  | cons f rest ih => intro v; simp [specEntries, ih]

theorem verAt_zero (maj : Bool) (v : FileVersion) : verAt maj v 0 = v := by
  cases maj <;> simp [verAt]

theorem verAt_stepDown (maj : Bool) (v : FileVersion) (i : Nat) :
    verAt maj (stepDown maj v) i = verAt maj v (i + 1) := by
  cases maj <;> simp [verAt, stepDown] <;> omega

theorem axisVal_verAt (maj : Bool) (v : FileVersion) (i : Nat) :
    axisVal maj (verAt maj v i) = axisVal maj v - i := by
  cases maj <;> simp [axisVal, verAt]

/-- Helper: the entry at position `i` of the ghost denotation stamps the
file at position `i` (of the sorted input) with version `verAt v i`. -/
theorem specEntries_getElem (E : List Char) (maj : Bool) :
    ∀ (fs : List VFile) (v : FileVersion) (i : Nat),
      (specEntries E maj fs v)[i]? =
        (fs[i]?).map (fun f =>
          ⟨f.name, updated_name E f.name (verAt maj v i), verAt maj v i, f.ctime⟩) := by
  intro fs
  induction fs with
  | nil => intro v i; rfl
  | cons f rest ih =>
    intro v i
    match i with
    | 0 => simp [specEntries, verAt_zero]
    | i + 1 =>
      simp only [specEntries, List.getElem?_cons_succ]
      rw [ih (stepDown maj v) i]
      simp [verAt_stepDown]

/-- Claim C1, counterexample: for two files with no embedded version the
claim says the engine starts from `Version(0,0)` and assigns ranks 1 and 0;
the code instead raises from the first decrement of `FileVersion(0, 0)`, so
no renaming plan is produced at all. -/
theorem C1_counterexample :
    create_target_names [⟨"a.txt".toList, 0⟩, ⟨"b.txt".toList, 1⟩]
        ("txt".toList) false =
      .error "Cannot decrease minor version below 0." := by
  rfl

/-- Claim C1 (amended): for every non-empty file list that contains at least
one embedded version — or is a singleton — the engine succeeds; its plan
walks the files sorted ascending by creation time and stamps the file at age
position `i` with rotating-axis value `count - 1 - i`: the oldest gets
`count - 1`, the newest gets `0`, consecutive files differ by exactly one.
When no file embeds a version (so the list is a singleton) the stamped
version is exactly `Version(0,0)`.  For two or more files none of which
embeds a version, the engine instead raises (see the counterexample). -/
theorem C1_amended (files : List VFile) (E : List Char) (maj : Bool)
    (hne : files ≠ [])
    (hv : get_max_version_number (sortByCtime files) ≠ none ∨ files.length = 1) :
    ∃ l, create_target_entries files E maj = .ok l ∧
      l.length = files.length ∧
      l.map (fun e => e.oldName) = (sortByCtime files).map (fun f => f.name) ∧
      (sortByCtime files).Pairwise (fun a b => a.ctime ≤ b.ctime) ∧
      (∀ i : Nat, ∀ e : RenameEntry, l[i]? = some e →
        axisVal maj e.ver = (files.length : Int) - 1 - i) ∧
      (get_max_version_number (sortByCtime files) = none →
        ∀ e : RenameEntry, l[0]? = some e → e.ver = ⟨0, 0⟩) := by
  have h0 : ¬(files.length = 0) := by
    intro h; exact hne (List.length_eq_zero.mp h)
  have hsl : (sortByCtime files).length = files.length := sortByCtime_length files
  cases hmax : get_max_version_number (sortByCtime files) with
  | none =>
    have h1 : files.length = 1 := by
      rcases hv with h | h
      · exact absurd hmax h
      · exact h
    have hax : axisVal maj (⟨0, 0⟩ : FileVersion) =
        ((sortByCtime files).length : Int) - 1 := by
      cases maj <;> simp [axisVal, hsl, h1]
    have hloop := ctnLoop_eq_spec E maj (sortByCtime files) ⟨0, 0⟩ hax
    refine ⟨specEntries E maj (sortByCtime files) ⟨0, 0⟩, ?_, ?_, ?_, ?_, ?_, ?_⟩
    · simp only [create_target_entries, h0, if_false, hmax]
      exact hloop
    · rw [specEntries_length, hsl]
    · exact specEntries_map_oldName E maj _ _
    · exact sortByCtime_pairwise files
    · intro i e he
      rw [specEntries_getElem] at he
      cases hf : (sortByCtime files)[i]? with
      | none => rw [hf] at he; cases he
      | some f =>
        rw [hf] at he
        have hi : i < (sortByCtime files).length := by
          by_contra hcon
          rw [List.getElem?_eq_none (by omega)] at hf
          cases hf
        have hi1 : i = 0 := by omega
        subst hi1
        simp only [Option.map_some'] at he
        cases he
        rw [verAt_zero]
        cases maj <;> simp [axisVal, h1]
    · intro _ e he
      rw [specEntries_getElem] at he
      cases hf : (sortByCtime files)[0]? with
      | none => rw [hf] at he; cases he
      | some f =>
        rw [hf] at he
        simp only [Option.map_some'] at he
        cases he
        rw [verAt_zero]
  | some m =>
    have hax : axisVal maj
        (if maj then (⟨(files.length : Int) - 1, m.minor⟩ : FileVersion)
         else ⟨m.major, (files.length : Int) - 1⟩) =
        ((sortByCtime files).length : Int) - 1 := by
      cases maj <;> simp [axisVal, hsl]
    have hloop := ctnLoop_eq_spec E maj (sortByCtime files) _ hax
    refine ⟨specEntries E maj (sortByCtime files)
      (if maj then ⟨(files.length : Int) - 1, m.minor⟩
       else ⟨m.major, (files.length : Int) - 1⟩), ?_, ?_, ?_, ?_, ?_, ?_⟩
    · simp only [create_target_entries, h0, if_false, hmax]
      exact hloop
    · rw [specEntries_length, hsl]
    · exact specEntries_map_oldName E maj _ _
    · exact sortByCtime_pairwise files
    · intro i e he
      rw [specEntries_getElem] at he
      cases hf : (sortByCtime files)[i]? with
      | none => rw [hf] at he; cases he
      | some f =>
        rw [hf] at he
        simp only [Option.map_some'] at he
        cases he
        rw [axisVal_verAt, hax, hsl]
    · intro hcon
      cases hcon

/-- Claim C1, witness for the amended theorem: two files, the older one
versioned `x-0-0.txt`, the newer unversioned `y.txt`. -/
theorem C1_witness :
    ∃ l, create_target_entries
        [⟨"x-0-0.txt".toList, 5⟩, ⟨"y.txt".toList, 7⟩] ("txt".toList) false = .ok l ∧
      l.length = ([⟨"x-0-0.txt".toList, 5⟩, ⟨"y.txt".toList, 7⟩] : List VFile).length ∧
      l.map (fun e => e.oldName) =
        (sortByCtime [⟨"x-0-0.txt".toList, 5⟩, ⟨"y.txt".toList, 7⟩]).map (fun f => f.name) ∧
      (sortByCtime [⟨"x-0-0.txt".toList, 5⟩, ⟨"y.txt".toList, 7⟩]).Pairwise
        (fun a b => a.ctime ≤ b.ctime) ∧
      (∀ i : Nat, ∀ e : RenameEntry, l[i]? = some e →
        axisVal false e.ver =
          (([⟨"x-0-0.txt".toList, 5⟩, ⟨"y.txt".toList, 7⟩] : List VFile).length : Int) - 1 - i) ∧
      (get_max_version_number (sortByCtime [⟨"x-0-0.txt".toList, 5⟩, ⟨"y.txt".toList, 7⟩]) = none →
        ∀ e : RenameEntry, l[0]? = some e → e.ver = ⟨0, 0⟩) :=
  C1_amended [⟨"x-0-0.txt".toList, 5⟩, ⟨"y.txt".toList, 7⟩] ("txt".toList) false
    (by simp) (Or.inl (by decide))

/-! ## Theorems: rotation idempotence (claim C8) — scanner equations

The fuelled scanners are given fuel-independent unfolding equations (the
fuel is always at least the string length), after which no proof mentions
fuel again. -/

theorem findMatchesF_nil : ∀ fuel, findMatchesF fuel [] = [] := by
  intro fuel; cases fuel <;> rfl

theorem subAllF_nil (repl : List Char) : ∀ fuel, subAllF repl fuel [] = [] := by
  intro fuel; cases fuel <;> rfl

theorem strReplaceF_nil (old new : List Char) :
    ∀ fuel, strReplaceF old new fuel [] = [] := by
  intro fuel; cases fuel <;> rfl

theorem findMatchesF_fuel : ∀ (f1 f2 : Nat) (s : List Char),
    s.length ≤ f1 → s.length ≤ f2 → findMatchesF f1 s = findMatchesF f2 s := by
  intro f1
  induction f1 with
  | zero =>
    intro f2 s h1 _
    have hs : s = [] := List.length_eq_zero.mp (Nat.le_zero.mp h1)
    subst hs
    rw [findMatchesF_nil, findMatchesF_nil]
  | succ n ih =>
    intro f2 s h1 h2
    match s with
    | [] => rw [findMatchesF_nil, findMatchesF_nil]
    | c :: rest =>
      match f2 with
      | 0 => simp at h2
      | m + 1 =>
        simp only [findMatchesF]
        cases hm : matchHead (c :: rest) with
        | some pr =>
          have hlen := List.length_drop 3 rest
          simp only [List.length_cons] at h1 h2
          rw [ih m (rest.drop 3) (by omega) (by omega)]
        | none =>
          simp only [List.length_cons] at h1 h2
          exact ih m rest (by omega) (by omega)

theorem findMatches_cons_match {c : Char} {rest : List Char} {pr : Char × Char}
    (h : matchHead (c :: rest) = some pr) :
    findMatches (c :: rest) = pr :: findMatches (rest.drop 3) := by
  unfold findMatches
  simp only [List.length_cons, findMatchesF, h]
  congr 1
  have hlen := List.length_drop 3 rest
  exact findMatchesF_fuel rest.length (rest.drop 3).length (rest.drop 3)
    (by omega) (le_refl _)

theorem findMatches_cons_nomatch {c : Char} {rest : List Char}
    (h : matchHead (c :: rest) = none) :
    findMatches (c :: rest) = findMatches rest := by
  unfold findMatches
  simp only [List.length_cons, findMatchesF, h]

theorem subAllF_fuel (repl : List Char) : ∀ (f1 f2 : Nat) (s : List Char),
    s.length ≤ f1 → s.length ≤ f2 → subAllF repl f1 s = subAllF repl f2 s := by
  intro f1
  induction f1 with
  | zero =>
    intro f2 s h1 _
    have hs : s = [] := List.length_eq_zero.mp (Nat.le_zero.mp h1)
    subst hs
    rw [subAllF_nil, subAllF_nil]
  | succ n ih =>
    intro f2 s h1 h2
    match s with
    | [] => rw [subAllF_nil, subAllF_nil]
    | c :: rest =>
      match f2 with
      | 0 => simp at h2
      | m + 1 =>
        simp only [subAllF]
        cases hm : matchHead (c :: rest) with
        | some pr =>
          have hlen := List.length_drop 3 rest
          simp only [List.length_cons] at h1 h2
          rw [ih m (rest.drop 3) (by omega) (by omega)]
        | none =>
          simp only [List.length_cons] at h1 h2
          rw [ih m rest (by omega) (by omega)]

theorem subAll_cons_match {repl : List Char} {c : Char} {rest : List Char}
    {pr : Char × Char} (h : matchHead (c :: rest) = some pr) :
    subAll repl (c :: rest) = repl ++ subAll repl (rest.drop 3) := by
  unfold subAll
  simp only [List.length_cons, subAllF, h]
  congr 1
  have hlen := List.length_drop 3 rest
  exact subAllF_fuel repl rest.length (rest.drop 3).length (rest.drop 3)
    (by omega) (le_refl _)

theorem subAll_cons_nomatch {repl : List Char} {c : Char} {rest : List Char}
    (h : matchHead (c :: rest) = none) :
    subAll repl (c :: rest) = c :: subAll repl rest := by
  unfold subAll
  simp only [List.length_cons, subAllF, h]

theorem strReplaceF_fuel (old new : List Char) (hold : old ≠ []) :
    ∀ (f1 f2 : Nat) (s : List Char),
    s.length ≤ f1 → s.length ≤ f2 →
    strReplaceF old new f1 s = strReplaceF old new f2 s := by
  intro f1
  induction f1 with
  | zero =>
    intro f2 s h1 _
    have hs : s = [] := List.length_eq_zero.mp (Nat.le_zero.mp h1)
    subst hs
    rw [strReplaceF_nil, strReplaceF_nil]
  | succ n ih =>
    intro f2 s h1 h2
    match s with
    | [] => rw [strReplaceF_nil, strReplaceF_nil]
    | c :: rest =>
      match f2 with
      | 0 => simp at h2
      | m + 1 =>
        simp only [strReplaceF]
        by_cases hp : old.isPrefixOf (c :: rest) = true
        · simp only [hp, if_true]
          have hlen := List.length_drop old.length (c :: rest)
          have holdlen : 1 ≤ old.length := by
            cases old with
            | nil => exact absurd rfl hold
            | cons o os => simp
          simp only [List.length_cons] at h1 h2 hlen
          rw [ih m ((c :: rest).drop old.length) (by omega) (by omega)]
        · rw [Bool.not_eq_true] at hp
          simp only [hp, Bool.false_eq_true, if_false]
          simp only [List.length_cons] at h1 h2
          rw [ih m rest (by omega) (by omega)]

theorem strReplace_cons_hit {old new : List Char} {c : Char} {rest : List Char}
    (hold : old ≠ []) (h : old.isPrefixOf (c :: rest) = true) :
    strReplace old new (c :: rest) = new ++ strReplace old new ((c :: rest).drop old.length) := by
  unfold strReplace
  simp only [List.length_cons, strReplaceF, h, if_true]
  congr 1
  have hlen := List.length_drop old.length (c :: rest)
  have holdlen : 1 ≤ old.length := by
    cases old with
    | nil => exact absurd rfl hold
    | cons o os => simp
  apply strReplaceF_fuel old new hold
  · simp only [List.length_cons] at hlen ⊢
    omega
  · exact le_refl _

theorem strReplace_cons_skip {old new : List Char} {c : Char} {rest : List Char}
    (h : old.isPrefixOf (c :: rest) = false) :
    strReplace old new (c :: rest) = c :: strReplace old new rest := by
  unfold strReplace
  simp only [List.length_cons, strReplaceF, h]
  simp

/-! ## Theorems: claim C8 — digit character facts -/

theorem natChars_single (n : Nat) (h : n ≤ 9) : natChars n = [digitChar n] := by
  match n with
  | 0 => rfl
  | k + 1 =>
    unfold natChars natCharsF
    rw [if_pos (by omega)]

theorem intChars_single (v : Int) (h0 : 0 ≤ v) (h9 : v ≤ 9) :
    intChars v = [digitChar v.toNat] := by
  unfold intChars
  rw [if_neg (by omega)]
  exact natChars_single v.toNat (by omega)

theorem isDigitChar_digitChar (n : Nat) (h : n ≤ 9) :
    isDigitChar (digitChar n) = true := by
  interval_cases n <;> decide

theorem charVal_digitChar (n : Nat) (h : n ≤ 9) :
    charVal (digitChar n) = (n : Int) := by
  interval_cases n <;> decide

theorem isDigitChar_ne_dash {c : Char} (h : isDigitChar c = true) :
    (c == '-') = false := by
  by_contra hcon
  simp only [Bool.not_eq_false, beq_iff_eq] at hcon
  subst hcon
  simp [isDigitChar] at h

theorem isDigitChar_ne_dot {c : Char} (h : isDigitChar c = true) :
    (c == '.') = false := by
  by_contra hcon
  simp only [Bool.not_eq_false, beq_iff_eq] at hcon
  subst hcon
  simp [isDigitChar] at h

theorem dash_not_digit : isDigitChar '-' = false := by decide

theorem dot_not_digit : isDigitChar '.' = false := by decide

/-- Helper: the digit pair a `patStr` window starts with is matched as
such. -/
theorem matchHead_patStr {d1 d2 : Char} (h1 : isDigitChar d1 = true)
    (h2 : isDigitChar d2 = true) (t : List Char) :
    matchHead (d1 :: '-' :: d2 :: '.' :: t) = some (d1, d2) := by
  simp [matchHead, h1, h2]

/-! ## Theorems: claim C8 — head preservation under rewriting

Substituting single-digit versions for every match (or splicing a version
before the suffix) can never create a match at a position that had none:
the replacement text's boundary characters (`-` first, `.` last) rule out
every window that straddles it. -/

theorem matchHead_none_of_findMatches_nil {c : Char} {rest : List Char}
    (h : findMatches (c :: rest) = []) : matchHead (c :: rest) = none := by
  cases hm : matchHead (c :: rest) with
  | none => rfl
  | some pr => rw [findMatches_cons_match hm] at h; cases h

theorem matchHead_subAll_none {w1 w2 : Char} (hw1 : isDigitChar w1 = true)
    (_hw2 : isDigitChar w2 = true) :
    ∀ (s u : List Char), matchHead (u ++ s) = none →
      matchHead (u ++ subAll (patStr w1 w2) s) = none := by
  intro s
  induction s with
  | nil => intro u h; exact h
  | cons a rest ih =>
    intro u h
    cases hm : matchHead (a :: rest) with
    | some pr =>
      rw [subAll_cons_match hm]
      match u with
      | [] =>
        rw [List.nil_append] at h
        rw [hm] at h
        cases h
      | [u0] =>
        simp [matchHead, patStr, isDigitChar_ne_dash hw1]
      | [u0, u1] =>
        simp [matchHead, patStr]
      | [u0, u1, u2] =>
        simp [matchHead, patStr, isDigitChar_ne_dot hw1]
      | u0 :: u1 :: u2 :: u3 :: u' =>
        simp only [List.cons_append] at h ⊢
        exact h
    | none =>
      rw [subAll_cons_nomatch hm, List.append_cons]
      apply ih (u ++ [a])
      rw [← List.append_cons]
      exact h

theorem matchHead_strReplace_none (w1 w2 : Char) (E : List Char)
    (hw1 : isDigitChar w1 = true) :
    ∀ (s u : List Char), matchHead (u ++ s) = none →
      matchHead (u ++ strReplace ('.' :: E) ('-' :: w1 :: '-' :: w2 :: '.' :: E) s) = none := by
  intro s
  induction s with
  | nil => intro u h; exact h
  | cons a rest ih =>
    intro u h
    by_cases hp : (('.' :: E).isPrefixOf (a :: rest)) = true
    · rw [strReplace_cons_hit (by simp) hp]
      match u with
      | [] =>
        simp [matchHead, dash_not_digit]
      | [u0] =>
        simp [matchHead]
      | [u0, u1] =>
        simp [matchHead, isDigitChar_ne_dot hw1]
      | [u0, u1, u2] =>
        simp [matchHead]
      | u0 :: u1 :: u2 :: u3 :: u' =>
        simp only [List.cons_append] at h ⊢
        exact h
    · rw [Bool.not_eq_true] at hp
      rw [strReplace_cons_skip hp, List.append_cons]
      apply ih (u ++ [a])
      rw [← List.append_cons]
      exact h

/-! ## Theorems: claim C8 — uniformity of rewritten names -/

/-- Helper: substituting the single-digit version `w1-w2.` for every match
turns each of the old matches into exactly that pair and creates no other
match. -/
theorem findMatches_subAll {w1 w2 : Char} (hw1 : isDigitChar w1 = true)
    (hw2 : isDigitChar w2 = true) :
    ∀ (n : Nat) (s : List Char), s.length ≤ n →
      findMatches (subAll (patStr w1 w2) s) =
        (findMatches s).map (fun _ => (w1, w2)) := by
  intro n
  induction n with
  | zero =>
    intro s hs
    have : s = [] := List.length_eq_zero.mp (Nat.le_zero.mp hs)
    subst this
    rfl
  | succ k ih =>
    intro s hs
    cases s with
    | nil => rfl
    | cons a rest =>
      cases hm : matchHead (a :: rest) with
      | some pr =>
        obtain ⟨hd1, hd2, r, hshape⟩ := matchHead_some_shape hm
        have ha : a = pr.1 := by injection hshape
        have hrest : rest = '-' :: pr.2 :: '.' :: r := by
          injection hshape with _ h2
        have hdrop : rest.drop 3 = r := by rw [hrest]; rfl
        rw [subAll_cons_match hm, hdrop]
        rw [findMatches_cons_match hm, hdrop]
        have hpat : patStr w1 w2 ++ subAll (patStr w1 w2) r =
            w1 :: '-' :: w2 :: '.' :: subAll (patStr w1 w2) r := rfl
        rw [hpat]
        have h0 : matchHead (w1 :: '-' :: w2 :: '.' :: subAll (patStr w1 w2) r) =
            some (w1, w2) := matchHead_patStr hw1 hw2 _
        rw [findMatches_cons_match h0]
        have hdrop2 : ('-' :: w2 :: '.' :: subAll (patStr w1 w2) r).drop 3 =
            subAll (patStr w1 w2) r := rfl
        rw [hdrop2]
        have hr : r.length ≤ k := by
          have : (a :: rest).length = r.length + 4 := by rw [hrest]; simp
          omega
        rw [ih r hr]
        simp
      | none =>
        rw [subAll_cons_nomatch hm]
        have h0 : matchHead (a :: subAll (patStr w1 w2) rest) = none := by
          have := matchHead_subAll_none hw1 hw2 rest [a]
            (by simpa using hm)
          simpa using this
        rw [findMatches_cons_nomatch h0, findMatches_cons_nomatch hm]
        exact ih rest (by simp at hs; omega)

/-- Helper: substituting a version that already equals every match of the
string is the identity. -/
theorem subAll_of_uniform {w1 w2 : Char} :
    ∀ (n : Nat) (s : List Char), s.length ≤ n →
      (∀ pr ∈ findMatches s, pr = (w1, w2)) →
      subAll (patStr w1 w2) s = s := by
  intro n
  induction n with
  | zero =>
    intro s hs _
    have : s = [] := List.length_eq_zero.mp (Nat.le_zero.mp hs)
    subst this
    rfl
  | succ k ih =>
    intro s hs hu
    cases s with
    | nil => rfl
    | cons a rest =>
      cases hm : matchHead (a :: rest) with
      | some pr =>
        obtain ⟨hd1, hd2, r, hshape⟩ := matchHead_some_shape hm
        have ha : a = pr.1 := by injection hshape
        have hrest : rest = '-' :: pr.2 :: '.' :: r := by
          injection hshape with _ h2
        have hdrop : rest.drop 3 = r := by rw [hrest]; rfl
        have hprw : pr = (w1, w2) := by
          apply hu
          rw [findMatches_cons_match hm]
          exact List.mem_cons_self _ _
        have hr : r.length ≤ k := by
          have : (a :: rest).length = r.length + 4 := by rw [hrest]; simp
          omega
        rw [subAll_cons_match hm, hdrop]
        rw [ih r hr ?tail]
        case tail =>
          intro q hq
          apply hu
          rw [findMatches_cons_match hm, hdrop]
          exact List.mem_cons_of_mem _ hq
        rw [ha, hrest, hprw]
        rfl
      | none =>
        rw [subAll_cons_nomatch hm]
        rw [ih rest (by simp at hs; omega) ?tail2]
        case tail2 =>
          intro q hq
          apply hu
          rw [findMatches_cons_nomatch hm]
          exact hq

/-- Helper: after splicing the single-digit version `-w1-w2.` before the
suffix of a name with no match, every match of the result (scanned behind an
arbitrary match-free left context `A`) is that version pair. -/
theorem findMatches_strReplace_uniform {w1 w2 : Char} (E : List Char)
    (hw1 : isDigitChar w1 = true) (hw2 : isDigitChar w2 = true) :
    ∀ (n : Nat) (s : List Char), s.length ≤ n →
      ∀ (A : List Char), findMatches (A ++ s) = [] →
      ∀ pr ∈ findMatches
        (A ++ strReplace ('.' :: E) ('-' :: w1 :: '-' :: w2 :: '.' :: E) s),
        pr = (w1, w2) := by
  intro n
  induction n with
  | zero =>
    intro s hs A h pr hpr
    have : s = [] := List.length_eq_zero.mp (Nat.le_zero.mp hs)
    subst this
    simp only [List.append_nil] at h
    have : strReplace ('.' :: E) ('-' :: w1 :: '-' :: w2 :: '.' :: E) ([] : List Char) = [] := rfl
    rw [this, List.append_nil, h] at hpr
    cases hpr
  | succ k ih =>
    intro s hs A
    induction A with
    | nil =>
      intro h pr hpr
      cases s with
      | nil =>
        have : strReplace ('.' :: E) ('-' :: w1 :: '-' :: w2 :: '.' :: E) ([] : List Char) = [] := rfl
        rw [this] at hpr
        cases hpr
      | cons a rest =>
        rw [List.nil_append] at h hpr
        by_cases hp : (('.' :: E).isPrefixOf (a :: rest)) = true
        · obtain ⟨t, ht⟩ : ∃ t, '.' :: E ++ t = a :: rest := by
            have := List.isPrefixOf_iff_prefix.mp hp
            exact this
          rw [strReplace_cons_hit (by simp) hp] at hpr
          have hdrop : (a :: rest).drop ('.' :: E).length = t := by
            rw [← ht]
            exact List.drop_left _ _
          rw [hdrop] at hpr
          have hnew : ('-' :: w1 :: '-' :: w2 :: '.' :: E) ++
              strReplace ('.' :: E) ('-' :: w1 :: '-' :: w2 :: '.' :: E) t =
              '-' :: w1 :: '-' :: w2 :: '.' ::
                (E ++ strReplace ('.' :: E) ('-' :: w1 :: '-' :: w2 :: '.' :: E) t) := by
            simp
          rw [hnew] at hpr
          have h0 : matchHead ('-' :: w1 :: '-' :: w2 :: '.' ::
              (E ++ strReplace ('.' :: E) ('-' :: w1 :: '-' :: w2 :: '.' :: E) t)) = none := by
            simp [matchHead, dash_not_digit]
          rw [findMatches_cons_nomatch h0] at hpr
          have h1 : matchHead (w1 :: '-' :: w2 :: '.' ::
              (E ++ strReplace ('.' :: E) ('-' :: w1 :: '-' :: w2 :: '.' :: E) t)) =
              some (w1, w2) := matchHead_patStr hw1 hw2 _
          rw [findMatches_cons_match h1] at hpr
          have hdrop2 : ('-' :: w2 :: '.' ::
              (E ++ strReplace ('.' :: E) ('-' :: w1 :: '-' :: w2 :: '.' :: E) t)).drop 3 =
              E ++ strReplace ('.' :: E) ('-' :: w1 :: '-' :: w2 :: '.' :: E) t := rfl
          rw [hdrop2] at hpr
          rcases List.mem_cons.mp hpr with h2 | h2
          · exact h2
          · have hlen : t.length ≤ k := by
              have : (a :: rest).length = E.length + 1 + t.length := by
                rw [← ht]; simp; omega
              simp only [List.length_cons] at this hs
              omega
            have hEs : findMatches (E ++ t) = [] := by
              have hh : findMatches ('.' :: (E ++ t)) = [] := by
                rw [← List.cons_append, ht]
                exact h
              have hmh : matchHead ('.' :: (E ++ t)) = none := by
                cases hmm : matchHead ('.' :: (E ++ t)) with
                | none => rfl
                | some q =>
                  obtain ⟨hq1, _, r2, hsh⟩ := matchHead_some_shape hmm
                  have : ('.' : Char) = q.1 := by injection hsh
                  rw [← this] at hq1
                  rw [dot_not_digit] at hq1
                  cases hq1
              rw [findMatches_cons_nomatch hmh] at hh
              exact hh
            exact ih t hlen E hEs pr h2
        · rw [Bool.not_eq_true] at hp
          rw [strReplace_cons_skip hp] at hpr
          have hmh : matchHead (a :: rest) = none :=
            matchHead_none_of_findMatches_nil h
          have h0 : matchHead (a ::
              strReplace ('.' :: E) ('-' :: w1 :: '-' :: w2 :: '.' :: E) rest) = none := by
            have := matchHead_strReplace_none w1 w2 E hw1 rest [a] (by simpa using hmh)
            simpa using this
          rw [findMatches_cons_nomatch h0] at hpr
          have hrest : findMatches rest = [] := by
            rw [findMatches_cons_nomatch hmh] at h
            exact h
          have := ih rest (by simp at hs; omega) [] (by simpa using hrest) pr
            (by simpa using hpr)
          exact this
    | cons a A' ihA =>
      intro h pr hpr
      have hmh : matchHead (a :: (A' ++ s)) = none := by
        apply matchHead_none_of_findMatches_nil
        simpa using h
      have h0 : matchHead ((a :: A') ++
          strReplace ('.' :: E) ('-' :: w1 :: '-' :: w2 :: '.' :: E) s) = none := by
        apply matchHead_strReplace_none w1 w2 E hw1 s (a :: A')
        simpa using hmh
      rw [List.cons_append, findMatches_cons_nomatch (by simpa using h0)] at hpr
      apply ihA ?h' pr hpr
      case h' =>
        rw [List.cons_append] at h
        rw [findMatches_cons_nomatch hmh] at h
        exact h

/-! ## Theorems: claim C8 — occurrence lemmas -/

theorem strReplace_no_occurs {old new : List Char} :
    ∀ s, occursB old s = false → strReplace old new s = s := by
  intro s
  induction s with
  | nil => intro _; rfl
  | cons a rest ih =>
    intro h
    simp only [occursB, Bool.or_eq_false_iff] at h
    rw [strReplace_cons_skip h.1, ih h.2]

theorem strReplace_occurs_decomp (E new : List Char) :
    ∀ s, occursB ('.' :: E) s = true →
      ∃ u y, strReplace ('.' :: E) new s = u ++ new ++ y := by
  intro s
  induction s with
  | nil =>
    intro h
    simp [occursB, List.isPrefixOf] at h
  | cons a rest ih =>
    intro h
    by_cases hp : (('.' :: E).isPrefixOf (a :: rest)) = true
    · refine ⟨[], strReplace ('.' :: E) new ((a :: rest).drop ('.' :: E).length), ?_⟩
      rw [strReplace_cons_hit (by simp) hp]
      simp
    · rw [Bool.not_eq_true] at hp
      simp only [occursB, hp, Bool.false_or] at h
      obtain ⟨u, y, hy⟩ := ih h
      refine ⟨a :: u, y, ?_⟩
      rw [strReplace_cons_skip hp, hy]
      simp

theorem fm_nonempty_of_window {d1 d2 : Char} (h1 : isDigitChar d1 = true)
    (h2 : isDigitChar d2 = true) :
    ∀ (u z : List Char), findMatches (u ++ d1 :: '-' :: d2 :: '.' :: z) ≠ [] := by
  intro u
  induction u with
  | nil =>
    intro z
    rw [List.nil_append, findMatches_cons_match (matchHead_patStr h1 h2 z)]
    simp
  | cons c u' ih =>
    intro z
    rw [List.cons_append]
    cases hm : matchHead (c :: (u' ++ d1 :: '-' :: d2 :: '.' :: z)) with
    | some pr =>
      rw [findMatches_cons_match hm]
      simp
    | none =>
      rw [findMatches_cons_nomatch hm]
      exact ih z

theorem getLast?_of_uniform {α : Type} (w : α) :
    ∀ l : List α, l ≠ [] → (∀ x ∈ l, x = w) → l.getLast? = some w := by
  intro l
  induction l with
  | nil => intro h _; exact absurd rfl h
  | cons x rest ih =>
    intro _ hu
    cases rest with
    | nil =>
      have : x = w := hu x (List.mem_cons_self _ _)
      rw [this]
      rfl
    | cons y r =>
      rw [List.getLast?_cons_cons]
      exact ih (by simp) (fun z hz => hu z (List.mem_cons_of_mem _ hz))

/-! ## Theorems: claim C8 — parsing the rewritten names back -/

theorem gfv_none_iff (name : List Char) :
    get_file_version name = none ↔ findMatches name = [] := by
  unfold get_file_version
  cases hl : (findMatches name).getLast? with
  | none =>
    simp only [true_iff]
    exact List.getLast?_eq_none_iff.mp hl
  | some pr =>
    constructor
    · intro hcon; cases hcon
    · intro hcon
      rw [hcon] at hl
      cases hl

/-- Helper: the version string of a version with single-digit fields is the
four-character pattern window of its two digit characters. -/
theorem verDash_pat (v : FileVersion) (h1 : 0 ≤ v.major) (h2 : v.major ≤ 9)
    (h3 : 0 ≤ v.minor) (h4 : v.minor ≤ 9) :
    verDashStr v ++ ['.'] = patStr (digitChar v.major.toNat) (digitChar v.minor.toNat) ∧
    isDigitChar (digitChar v.major.toNat) = true ∧
    isDigitChar (digitChar v.minor.toNat) = true ∧
    pairVersion (digitChar v.major.toNat, digitChar v.minor.toNat) = v := by
  have hM : v.major.toNat ≤ 9 := by omega
  have hm : v.minor.toNat ≤ 9 := by omega
  refine ⟨?_, isDigitChar_digitChar _ hM, isDigitChar_digitChar _ hm, ?_⟩
  · unfold verDashStr
    rw [intChars_single v.major h1 h2, intChars_single v.minor h3 h4]
    rfl
  · unfold pairVersion
    simp only [charVal_digitChar _ hM, charVal_digitChar _ hm]
    rw [Int.toNat_of_nonneg h1, Int.toNat_of_nonneg h3]

theorem updated_name_of_nil (E name : List Char) (v : FileVersion)
    (h : findMatches name = []) :
    updated_name E name v =
      strReplace ('.' :: E) ('-' :: (verDashStr v ++ '.' :: E)) name := by
  unfold updated_name
  rw [if_pos (by simpa [List.isEmpty_iff] using h)]

theorem updated_name_of_ne (E name : List Char) (v : FileVersion)
    (h : findMatches name ≠ []) :
    updated_name E name v = subAll (verDashStr v ++ ['.']) name := by
  unfold updated_name
  rw [if_neg (by simpa [List.isEmpty_iff] using h)]

/-- Helper: every match of an updated name is the stamped version's digit
pair. -/
theorem updated_name_uniform (E : List Char) (name : List Char) (v : FileVersion)
    (h1 : 0 ≤ v.major) (h2 : v.major ≤ 9) (h3 : 0 ≤ v.minor) (h4 : v.minor ≤ 9) :
    ∀ pr ∈ findMatches (updated_name E name v),
      pr = (digitChar v.major.toNat, digitChar v.minor.toNat) := by
  obtain ⟨hpat, hd1, hd2, _⟩ := verDash_pat v h1 h2 h3 h4
  intro pr hpr
  by_cases hm : findMatches name = []
  · rw [updated_name_of_nil E name v hm] at hpr
    have hnew : '-' :: (verDashStr v ++ '.' :: E) =
        '-' :: digitChar v.major.toNat :: '-' :: digitChar v.minor.toNat :: '.' :: E := by
      have : verDashStr v ++ '.' :: E = (verDashStr v ++ ['.']) ++ E := by simp
      rw [this, hpat]
      rfl
    rw [hnew] at hpr
    refine findMatches_strReplace_uniform E hd1 hd2 name.length name (le_refl _) [] ?_ pr ?_
    · simpa using hm
    · simpa using hpr
  · rw [updated_name_of_ne E name v hm] at hpr
    rw [hpat] at hpr
    have := findMatches_subAll hd1 hd2 name.length name (le_refl _)
    rw [this] at hpr
    rcases List.mem_map.mp hpr with ⟨q, _, hq⟩
    exact hq.symm

/-- Helper: a name that had a match still has one after updating. -/
theorem updated_name_nonempty (E : List Char) (name : List Char) (v : FileVersion)
    (h1 : 0 ≤ v.major) (h2 : v.major ≤ 9) (h3 : 0 ≤ v.minor) (h4 : v.minor ≤ 9)
    (hne : findMatches name ≠ []) :
    findMatches (updated_name E name v) ≠ [] := by
  obtain ⟨hpat, hd1, hd2, _⟩ := verDash_pat v h1 h2 h3 h4
  rw [updated_name_of_ne E name v hne]
  rw [hpat, findMatches_subAll hd1 hd2 name.length name (le_refl _)]
  simpa using hne

/-- Helper: when the updated name has a match at all, parsing it back yields
exactly the stamped version. -/
theorem updated_name_parse (E : List Char) (name : List Char) (v : FileVersion)
    (h1 : 0 ≤ v.major) (h2 : v.major ≤ 9) (h3 : 0 ≤ v.minor) (h4 : v.minor ≤ 9)
    (hne : findMatches (updated_name E name v) ≠ []) :
    get_file_version (updated_name E name v) = some v := by
  obtain ⟨hpat, hd1, hd2, hpair⟩ := verDash_pat v h1 h2 h3 h4
  unfold get_file_version
  rw [getLast?_of_uniform (digitChar v.major.toNat, digitChar v.minor.toNat)
    (findMatches (updated_name E name v)) hne
    (updated_name_uniform E name v h1 h2 h3 h4)]
  show some (pairVersion (digitChar v.major.toNat, digitChar v.minor.toNat)) = some v
  rw [hpair]

/-- Helper: re-stamping the same single-digit version onto an updated name
leaves it unchanged. -/
theorem updated_name_idem (E : List Char) (name : List Char) (v : FileVersion)
    (h1 : 0 ≤ v.major) (h2 : v.major ≤ 9) (h3 : 0 ≤ v.minor) (h4 : v.minor ≤ 9) :
    updated_name E (updated_name E name v) v = updated_name E name v := by
  obtain ⟨hpat, hd1, hd2, _⟩ := verDash_pat v h1 h2 h3 h4
  by_cases hne : findMatches (updated_name E name v) = []
  · -- the updated name still has no match: the original had none and the
    -- suffix never occurred, so the update was the identity
    have horig : findMatches name = [] := by
      by_contra hcon
      exact (updated_name_nonempty E name v h1 h2 h3 h4 hcon) hne
    have hocc : occursB ('.' :: E) name = false := by
      by_contra hcon
      rw [Bool.not_eq_false] at hcon
      obtain ⟨u, y, hy⟩ := strReplace_occurs_decomp
        E ('-' :: (verDashStr v ++ '.' :: E)) name hcon
      have hid : updated_name E name v = u ++ ('-' :: (verDashStr v ++ '.' :: E)) ++ y := by
        rw [updated_name_of_nil E name v horig]
        exact hy
      have hwin : updated_name E name v = (u ++ ['-']) ++
          digitChar v.major.toNat :: '-' :: digitChar v.minor.toNat :: '.' :: (E ++ y) := by
        rw [hid]
        have : verDashStr v ++ '.' :: E = (verDashStr v ++ ['.']) ++ E := by simp
        rw [this, hpat]
        simp [patStr]
      rw [hwin] at hne
      exact fm_nonempty_of_window hd1 hd2 (u ++ ['-']) (E ++ y) hne
    have hval : updated_name E name v = name := by
      rw [updated_name_of_nil E name v horig]
      exact strReplace_no_occurs name hocc
    rw [hval]
    exact hval
  · rw [updated_name_of_ne E (updated_name E name v) v hne]
    rw [hpat]
    exact subAll_of_uniform (updated_name E name v).length _ (le_refl _)
      (updated_name_uniform E name v h1 h2 h3 h4)

/-! ## Theorems: claim C8 — the maximum over rewritten names -/

theorem maxFold_mem : ∀ (fs : List VFile) (acc : Option FileVersion) (m : FileVersion),
    maxFold fs acc = some m →
    acc = some m ∨ ∃ f ∈ fs, get_file_version f.name = some m := by
  intro fs
  induction fs with
  | nil => intro acc m h; exact Or.inl h
  | cons f rest ih =>
    intro acc m h
    cases hp : get_file_version f.name with
    | none =>
      simp only [maxFold, hp] at h
      rcases ih acc m h with h1 | ⟨g, hg, hgp⟩
      · exact Or.inl h1
      · exact Or.inr ⟨g, List.mem_cons_of_mem _ hg, hgp⟩
    | some v =>
      cases acc with
      | none =>
        simp only [maxFold, hp] at h
        rcases ih (some v) m h with h1 | ⟨g, hg, hgp⟩
        · cases h1
          exact Or.inr ⟨f, List.mem_cons_self _ _, hp⟩
        · exact Or.inr ⟨g, List.mem_cons_of_mem _ hg, hgp⟩
      | some mx =>
        by_cases hgt : fvGt v mx = true
        · simp only [maxFold, hp, hgt, if_true] at h
          rcases ih (some v) m h with h1 | ⟨g, hg, hgp⟩
          · cases h1
            exact Or.inr ⟨f, List.mem_cons_self _ _, hp⟩
          · exact Or.inr ⟨g, List.mem_cons_of_mem _ hg, hgp⟩
        · rw [Bool.not_eq_true] at hgt
          simp only [maxFold, hp, hgt, Bool.false_eq_true, if_false] at h
          rcases ih (some mx) m h with h1 | ⟨g, hg, hgp⟩
          · exact Or.inl h1
          · exact Or.inr ⟨g, List.mem_cons_of_mem _ hg, hgp⟩

theorem maxFold_acc_some : ∀ (fs : List VFile) (acc : Option FileVersion),
    acc ≠ none → maxFold fs acc ≠ none := by
  intro fs
  induction fs with
  | nil => intro acc h; exact h
  | cons f rest ih =>
    intro acc h
    cases hp : get_file_version f.name with
    | none =>
      simp only [maxFold, hp]
      exact ih acc h
    | some v =>
      cases acc with
      | none =>
        simp only [maxFold, hp]
        exact ih (some v) (by simp)
      | some mx =>
        by_cases hgt : fvGt v mx = true
        · simp only [maxFold, hp, hgt, if_true]
          exact ih (some v) (by simp)
        · rw [Bool.not_eq_true] at hgt
          simp only [maxFold, hp, hgt, Bool.false_eq_true, if_false]
          exact ih (some mx) (by simp)

theorem get_max_some_of_mem : ∀ (fs : List VFile) (f : VFile), f ∈ fs →
    get_file_version f.name ≠ none → get_max_version_number fs ≠ none := by
  intro fs
  induction fs with
  | nil => intro f hf; cases hf
  | cons g rest ih =>
    intro f hf hp
    rcases List.mem_cons.mp hf with h1 | h1
    · subst h1
      unfold get_max_version_number
      cases hq : get_file_version f.name with
      | none => exact absurd hq hp
      | some v =>
        simp only [maxFold, hq]
        exact maxFold_acc_some rest (some v) (by simp)
    · unfold get_max_version_number
      cases hq : get_file_version g.name with
      | none =>
        simp only [maxFold, hq]
        have := ih f h1 hp
        unfold get_max_version_number at this
        exact this
      | some v =>
        simp only [maxFold, hq]
        exact maxFold_acc_some rest (some v) (by simp)

/-! ## Theorems: claim C8 — assembling the second rotation pass -/

theorem sortByCtime_of_pairwise : ∀ l : List VFile,
    l.Pairwise (fun a b => a.ctime ≤ b.ctime) → sortByCtime l = l := by
  intro l
  induction l with
  | nil => intro _; rfl
  | cons f rest ih =>
    intro h
    rcases List.pairwise_cons.mp h with ⟨hf, hrest⟩
    simp only [sortByCtime]
    rw [ih hrest]
    cases rest with
    | nil => rfl
    | cons g r =>
      have hng : ¬(g.ctime < f.ctime) := by
        have := hf g (List.mem_cons_self _ _)
        omega
      simp [insertByCtime, hng]

theorem specEntries_map_ctime (E : List Char) (maj : Bool) :
    ∀ (fs : List VFile) (v : FileVersion),
      (specEntries E maj fs v).map (fun e => e.ctime) = fs.map (fun f => f.ctime) := by
  intro fs
  induction fs with
  | nil => intro v; rfl
  | cons f rest ih => intro v; simp [specEntries, ih]

theorem renamedFiles_pairwise (E : List Char) (maj : Bool) (fs : List VFile)
    (v : FileVersion) (h : fs.Pairwise (fun a b => a.ctime ≤ b.ctime)) :
    (renamedFiles (specEntries E maj fs v)).Pairwise (fun a b => a.ctime ≤ b.ctime) := by
  have h1 : (renamedFiles (specEntries E maj fs v)).map (fun x => x.ctime)
      = fs.map (fun f => f.ctime) := by
    unfold renamedFiles
    rw [List.map_map]
    have h2 := specEntries_map_ctime E maj fs v
    simpa using h2
  have h2 : List.Pairwise (fun a b => a ≤ b) (fs.map (fun f => f.ctime)) :=
    List.pairwise_map.mpr h
  rw [← h1] at h2
  exact List.pairwise_map.mp h2

theorem nonAxisVal_verAt (maj : Bool) (v : FileVersion) (i : Nat) :
    nonAxisVal maj (verAt maj v i) = nonAxisVal maj v := by
  cases maj <;> simp [nonAxisVal, verAt]

theorem verAt_bounds (maj : Bool) (v0 : FileVersion) (i n : Nat)
    (hax : axisVal maj v0 = (n : Int) - 1) (hn : n ≤ 10)
    (hnon0 : 0 ≤ nonAxisVal maj v0) (hnon9 : nonAxisVal maj v0 ≤ 9)
    (hi : i < n) :
    0 ≤ (verAt maj v0 i).major ∧ (verAt maj v0 i).major ≤ 9 ∧
    0 ≤ (verAt maj v0 i).minor ∧ (verAt maj v0 i).minor ≤ 9 := by
  cases maj with
  | false =>
    have hax2 : v0.minor = (n : Int) - 1 := by simpa [axisVal] using hax
    have ha : 0 ≤ v0.major := by simpa [nonAxisVal] using hnon0
    have hb : v0.major ≤ 9 := by simpa [nonAxisVal] using hnon9
    have hv : verAt false v0 i = ⟨v0.major, v0.minor - i⟩ := by simp [verAt]
    rw [hv]
    exact ⟨ha, hb, by show 0 ≤ v0.minor - (i : Int); omega,
      by show v0.minor - (i : Int) ≤ 9; omega⟩
  | true =>
    have hax2 : v0.major = (n : Int) - 1 := by simpa [axisVal] using hax
    have ha : 0 ≤ v0.minor := by simpa [nonAxisVal] using hnon0
    have hb : v0.minor ≤ 9 := by simpa [nonAxisVal] using hnon9
    have hv : verAt true v0 i = ⟨v0.major - i, v0.minor⟩ := by simp [verAt]
    rw [hv]
    exact ⟨by show 0 ≤ v0.major - (i : Int); omega,
      by show v0.major - (i : Int) ≤ 9; omega, ha, hb⟩

theorem version2_eq (maj : Bool) (v0 m2 : FileVersion) (n : Nat)
    (hax : axisVal maj v0 = (n : Int) - 1)
    (hnon : nonAxisVal maj m2 = nonAxisVal maj v0) :
    (if maj then (⟨(n : Int) - 1, m2.minor⟩ : FileVersion)
     else ⟨m2.major, (n : Int) - 1⟩) = v0 := by
  cases maj <;>
    simp only [axisVal, nonAxisVal, if_true, if_false] at hax hnon <;>
    simp only [Bool.false_eq_true, if_false, if_true] <;>
    cases v0 <;>
    simp_all

/-- Helper: an updated name with no match at all means the original name was
already match-free, the suffix `."file_ending"` never occurred in it, and
the update was the identity. -/
theorem updated_name_no_match (E : List Char) (name : List Char) (v : FileVersion)
    (h1 : 0 ≤ v.major) (h2 : v.major ≤ 9) (h3 : 0 ≤ v.minor) (h4 : v.minor ≤ 9)
    (hne : findMatches (updated_name E name v) = []) :
    findMatches name = [] ∧ occursB ('.' :: E) name = false ∧
      updated_name E name v = name := by
  obtain ⟨hpat, hd1, hd2, _⟩ := verDash_pat v h1 h2 h3 h4
  have horig : findMatches name = [] := by
    by_contra hcon
    exact (updated_name_nonempty E name v h1 h2 h3 h4 hcon) hne
  have hocc : occursB ('.' :: E) name = false := by
    by_contra hcon
    rw [Bool.not_eq_false] at hcon
    obtain ⟨u, y, hy⟩ := strReplace_occurs_decomp
      E ('-' :: (verDashStr v ++ '.' :: E)) name hcon
    have hid : updated_name E name v = u ++ ('-' :: (verDashStr v ++ '.' :: E)) ++ y := by
      rw [updated_name_of_nil E name v horig]
      exact hy
    have hwin : updated_name E name v = (u ++ ['-']) ++
        digitChar v.major.toNat :: '-' :: digitChar v.minor.toNat :: '.' :: (E ++ y) := by
      rw [hid]
      have : verDashStr v ++ '.' :: E = (verDashStr v ++ ['.']) ++ E := by simp
      rw [this, hpat]
      simp [patStr]
    rw [hwin] at hne
    exact fm_nonempty_of_window hd1 hd2 (u ++ ['-']) (E ++ y) hne
  refine ⟨horig, hocc, ?_⟩
  rw [updated_name_of_nil E name v horig]
  exact strReplace_no_occurs name hocc

/-- Helper: a name with no match and no suffix occurrence is untouched by an
update with any version at all. -/
theorem updated_name_no_occ (E : List Char) (name : List Char) (w : FileVersion)
    (hm : findMatches name = []) (ho : occursB ('.' :: E) name = false) :
    updated_name E name w = name := by
  rw [updated_name_of_nil E name w hm]
  exact strReplace_no_occurs name ho

theorem get_max_singleton (x : VFile) :
    get_max_version_number [x] = get_file_version x.name := by
  cases hp : get_file_version x.name with
  | none => simp [get_max_version_number, maxFold, hp]
  | some v => simp [get_max_version_number, maxFold, hp]

/-- Helper: stamping the same start version onto the renamed file set again
reproduces exactly the same new names. -/
theorem specEntries_second_pass (E : List Char) (maj : Bool) (fs : List VFile)
    (v0 : FileVersion)
    (hax : axisVal maj v0 = (fs.length : Int) - 1)
    (hn : fs.length ≤ 10)
    (hnon0 : 0 ≤ nonAxisVal maj v0) (hnon9 : nonAxisVal maj v0 ≤ 9) :
    (specEntries E maj (renamedFiles (specEntries E maj fs v0)) v0).map (fun e => e.newName)
      = (specEntries E maj fs v0).map (fun e => e.newName) := by
  apply List.ext_getElem?
  intro i
  rw [List.getElem?_map, List.getElem?_map]
  rw [specEntries_getElem, specEntries_getElem]
  unfold renamedFiles
  rw [List.getElem?_map, specEntries_getElem]
  cases hf : fs[i]? with
  | none => rfl
  | some f =>
    have hi : i < fs.length := by
      by_contra hcon
      rw [List.getElem?_eq_none (by omega)] at hf
      cases hf
    obtain ⟨b1, b2, b3, b4⟩ := verAt_bounds maj v0 i fs.length hax hn hnon0 hnon9 hi
    simp only [Option.map_some']
    rw [updated_name_idem E f.name (verAt maj v0 i) b1 b2 b3 b4]

/-- Helper: the second rotation pass over the renamed (otherwise unchanged)
file set succeeds and produces the same new names — provided the first pass
started from a version whose rotating axis is `count - 1`, the non-rotating
component is a single digit, the file count is at most ten, and either some
file had an embedded version or there was at most one file. -/
theorem rotation_second_run (E : List Char) (maj : Bool) (fs : List VFile)
    (v0 : FileVersion)
    (hn : fs.length ≤ 10)
    (hpw : fs.Pairwise (fun a b => a.ctime ≤ b.ctime))
    (hax : axisVal maj v0 = (fs.length : Int) - 1)
    (hnon0 : 0 ≤ nonAxisVal maj v0) (hnon9 : nonAxisVal maj v0 ≤ 9)
    (hex : (∃ f ∈ fs, findMatches f.name ≠ []) ∨ fs.length ≤ 1) :
    ∃ l2, create_target_entries (renamedFiles (specEntries E maj fs v0)) E maj = .ok l2 ∧
      l2.map (fun e => e.newName) = (specEntries E maj fs v0).map (fun e => e.newName) := by
  by_cases h0 : fs.length = 0
  · have hfs : fs = [] := List.length_eq_zero.mp h0
    subst hfs
    exact ⟨[], rfl, rfl⟩
  · have hl1 : (specEntries E maj fs v0).length = fs.length := specEntries_length E maj fs v0
    have hl2 : (renamedFiles (specEntries E maj fs v0)).length = fs.length := by
      unfold renamedFiles
      rw [List.length_map, hl1]
    have hsort2 : sortByCtime (renamedFiles (specEntries E maj fs v0)) =
        renamedFiles (specEntries E maj fs v0) :=
      sortByCtime_of_pairwise _ (renamedFiles_pairwise E maj fs v0 hpw)
    have h02 : ¬((renamedFiles (specEntries E maj fs v0)).length = 0) := by
      rw [hl2]; exact h0
    cases hmax2 : get_max_version_number (renamedFiles (specEntries E maj fs v0)) with
    | some m2 =>
      -- every parsed version among the renamed names is a stamped one, so
      -- the second start version collapses onto the first
      rcases maxFold_mem _ none m2 hmax2 with hacc | ⟨f2, hf2mem, hf2p⟩
      · cases hacc
      rcases List.mem_map.mp hf2mem with ⟨e, hemem, hfe⟩
      rcases List.mem_iff_getElem?.mp hemem with ⟨j, hj⟩
      rw [specEntries_getElem] at hj
      cases hfj : fs[j]? with
      | none => rw [hfj] at hj; cases hj
      | some fj =>
        rw [hfj] at hj
        simp only [Option.map_some'] at hj
        have hjlt : j < fs.length := by
          by_contra hcon
          rw [List.getElem?_eq_none (by omega)] at hfj
          cases hfj
        obtain ⟨b1, b2, b3, b4⟩ := verAt_bounds maj v0 j fs.length hax hn hnon0 hnon9 hjlt
        have hname : f2.name = updated_name E fj.name (verAt maj v0 j) := by
          rw [← hfe]
          cases hj
          rfl
        have hm2 : m2 = verAt maj v0 j := by
          have hne : findMatches (updated_name E fj.name (verAt maj v0 j)) ≠ [] := by
            intro hcon
            have := (gfv_none_iff _).mpr hcon
            rw [← hname] at this
            rw [hf2p] at this
            cases this
          have := updated_name_parse E fj.name (verAt maj v0 j) b1 b2 b3 b4 hne
          rw [← hname] at this
          rw [hf2p] at this
          exact Option.some.inj this
        have hnon : nonAxisVal maj m2 = nonAxisVal maj v0 := by
          rw [hm2]
          exact nonAxisVal_verAt maj v0 j
        have hver2 : (if maj then (⟨((renamedFiles (specEntries E maj fs v0)).length : Int) - 1, m2.minor⟩ : FileVersion)
            else ⟨m2.major, ((renamedFiles (specEntries E maj fs v0)).length : Int) - 1⟩) = v0 := by
          rw [hl2]
          exact version2_eq maj v0 m2 fs.length hax hnon
        refine ⟨specEntries E maj (renamedFiles (specEntries E maj fs v0)) v0, ?_, ?_⟩
        · simp only [create_target_entries, h02, if_false, hsort2, hmax2, hver2]
          apply ctnLoop_eq_spec
          rw [hax, hl2]
        · exact specEntries_second_pass E maj fs v0 hax hn hnon0 hnon9
    | none =>
      -- no renamed name parses: the set must be a single untouched file
      have hn1 : fs.length = 1 := by
        rcases hex with ⟨f, hf, hfp⟩ | hle
        · exfalso
          rcases List.mem_iff_getElem?.mp hf with ⟨j, hj⟩
          have hjlt : j < fs.length := by
            by_contra hcon
            rw [List.getElem?_eq_none (by omega)] at hj
            cases hj
          obtain ⟨b1, b2, b3, b4⟩ := verAt_bounds maj v0 j fs.length hax hn hnon0 hnon9 hjlt
          have hmem2 : (⟨updated_name E f.name (verAt maj v0 j), f.ctime⟩ : VFile) ∈
              renamedFiles (specEntries E maj fs v0) := by
            apply List.mem_iff_getElem?.mpr
            refine ⟨j, ?_⟩
            unfold renamedFiles
            rw [List.getElem?_map, specEntries_getElem, hj]
            rfl
          have hp2 : get_file_version (updated_name E f.name (verAt maj v0 j)) ≠ none := by
            intro hcon
            exact updated_name_nonempty E f.name (verAt maj v0 j) b1 b2 b3 b4 hfp
              ((gfv_none_iff _).mp hcon)
          exact get_max_some_of_mem _ _ hmem2 hp2 hmax2
        · omega
      obtain ⟨f, hfs⟩ : ∃ f, fs = [f] := by
        cases fs with
        | nil => simp at hn1
        | cons f rest =>
          cases rest with
          | nil => exact ⟨f, rfl⟩
          | cons g r => simp at hn1
      subst hfs
      have hv00 : verAt maj v0 0 = v0 := verAt_zero maj v0
      have hb : 0 ≤ v0.major ∧ v0.major ≤ 9 ∧ 0 ≤ v0.minor ∧ v0.minor ≤ 9 := by
        have := verAt_bounds maj v0 0 1 (by simpa using hax) (by omega) hnon0 hnon9 (by omega)
        rw [hv00] at this
        exact this
      have hone : renamedFiles (specEntries E maj [f] v0) =
          [⟨updated_name E f.name v0, f.ctime⟩] := rfl
      have hparse : get_file_version (updated_name E f.name v0) = none := by
        have h5 : get_max_version_number
            [(⟨updated_name E f.name v0, f.ctime⟩ : VFile)] = none := by
          rw [← hone]
          exact hmax2
        rw [get_max_singleton] at h5
        exact h5
      have hfm : findMatches (updated_name E f.name v0) = [] := by
        rw [← gfv_none_iff]
        exact hparse
      obtain ⟨hm0, ho0, hid0⟩ :=
        updated_name_no_match E f.name v0 hb.1 hb.2.1 hb.2.2.1 hb.2.2.2 hfm
      refine ⟨specEntries E maj (renamedFiles (specEntries E maj [f] v0)) ⟨0, 0⟩, ?_, ?_⟩
      · simp only [create_target_entries, h02, if_false, hsort2, hmax2]
        apply ctnLoop_eq_spec
        cases maj <;> simp [axisVal, hl2]
      · rw [hone]
        have hupd : updated_name E (updated_name E f.name v0) (⟨0, 0⟩ : FileVersion) =
            updated_name E f.name v0 := by
          rw [hid0]
          exact updated_name_no_occ E f.name ⟨0, 0⟩ hm0 ho0
        simp [specEntries, hupd]

/-- Claim C8, counterexample: with eleven files (ten unversioned, one
versioned), the first rotation stamps the oldest file with minor `10`, which
the single-digit pattern cannot parse back; the second run on the unchanged
file set then treats that file as new and stamps it again, producing a
different name — rotation is not idempotent. -/
theorem C8_counterexample :
    rotateNames c8files ("t".toList) false =
      .ok ["b1-0-10.t".toList, "b2-0-9.t".toList, "b3-0-8.t".toList,
           "b4-0-7.t".toList, "b5-0-6.t".toList, "b6-0-5.t".toList,
           "b7-0-4.t".toList, "b8-0-3.t".toList, "b9-0-2.t".toList,
           "c0-0-1.t".toList, "a-0-0.t".toList] ∧
    rotateTwiceNames c8files ("t".toList) false =
      .ok ["b1-0-10-0-10.t".toList, "b2-0-9.t".toList, "b3-0-8.t".toList,
           "b4-0-7.t".toList, "b5-0-6.t".toList, "b6-0-5.t".toList,
           "b7-0-4.t".toList, "b8-0-3.t".toList, "b9-0-2.t".toList,
           "c0-0-1.t".toList, "a-0-0.t".toList] ∧
    rotateTwiceNames c8files ("t".toList) false ≠
      rotateNames c8files ("t".toList) false := by
  refine ⟨by rfl, by rfl, ?_⟩
  intro hcon
  exact absurd (Except.ok.inj hcon) (by decide)

/-- Claim C8 (amended): rotation is idempotent on an unchanged file set of at
most ten files: whenever the first pass succeeds, running the engine again on
the renamed (otherwise unchanged) files succeeds and reproduces exactly the
same file names.  (Eleven or more files force a two-digit version component,
which the single-digit pattern cannot read back — see the counterexample.) -/
theorem C8_idempotent (files : List VFile) (E : List Char) (maj : Bool)
    (l1 : List RenameEntry) (hn : files.length ≤ 10)
    (h1 : create_target_entries files E maj = .ok l1) :
    ∃ l2, create_target_entries (renamedFiles l1) E maj = .ok l2 ∧
      l2.map (fun e => e.newName) = l1.map (fun e => e.newName) := by
  by_cases h0 : files.length = 0
  · have hfs : files = [] := List.length_eq_zero.mp h0
    subst hfs
    have hok : (Except.ok [] : Except String (List RenameEntry)) = .ok l1 := h1
    have hl1 : l1 = [] := (Except.ok.inj hok).symm
    subst hl1
    exact ⟨[], rfl, rfl⟩
  · have hsl : (sortByCtime files).length = files.length := sortByCtime_length files
    have hpw : (sortByCtime files).Pairwise (fun a b => a.ctime ≤ b.ctime) :=
      sortByCtime_pairwise files
    cases hmax : get_max_version_number (sortByCtime files) with
    | none =>
      have hloop : ctnLoop E maj (sortByCtime files) ⟨0, 0⟩ = .ok l1 := by
        have := h1
        simp only [create_target_entries, h0, if_false, hmax] at this
        exact this
      have hone : (sortByCtime files).length = 1 := by
        cases hs : sortByCtime files with
        | nil => rw [hs] at hsl; simp at hsl; exact absurd hsl.symm h0
        | cons f rest =>
          cases rest with
          | nil => rfl
          | cons g r =>
            exfalso
            rw [hs] at hloop
            unfold ctnLoop at hloop
            cases maj <;>
              simp [FileVersion.decrease_major, FileVersion.decrease_minor] at hloop
      have hax : axisVal maj (⟨0, 0⟩ : FileVersion) =
          ((sortByCtime files).length : Int) - 1 := by
        cases maj <;> simp [axisVal, hone]
      have hl1 : l1 = specEntries E maj (sortByCtime files) ⟨0, 0⟩ := by
        have h2 := ctnLoop_eq_spec E maj (sortByCtime files) ⟨0, 0⟩ hax
        rw [hloop] at h2
        exact Except.ok.inj h2
      subst hl1
      exact rotation_second_run E maj (sortByCtime files) ⟨0, 0⟩
        (by omega) hpw hax
        (by cases maj <;> simp [nonAxisVal])
        (by cases maj <;> simp [nonAxisVal])
        (Or.inr (by omega))
    | some m =>
      have hloop : ctnLoop E maj (sortByCtime files)
          (if maj then ⟨(files.length : Int) - 1, m.minor⟩
           else ⟨m.major, (files.length : Int) - 1⟩) = .ok l1 := by
        have := h1
        simp only [create_target_entries, h0, if_false, hmax] at this
        exact this
      have hax : axisVal maj
          (if maj then (⟨(files.length : Int) - 1, m.minor⟩ : FileVersion)
           else ⟨m.major, (files.length : Int) - 1⟩) =
          ((sortByCtime files).length : Int) - 1 := by
        cases maj <;> simp [axisVal, hsl]
      have hl1 : l1 = specEntries E maj (sortByCtime files)
          (if maj then ⟨(files.length : Int) - 1, m.minor⟩
           else ⟨m.major, (files.length : Int) - 1⟩) := by
        have h2 := ctnLoop_eq_spec E maj (sortByCtime files) _ hax
        rw [hloop] at h2
        exact Except.ok.inj h2
      -- the maximum came from some member, whose name parses: bounds and
      -- existence of a versioned member follow
      rcases maxFold_mem _ none m hmax with hacc | ⟨f, hfmem, hfp⟩
      · cases hacc
      obtain ⟨bm1, bm2, bm3, bm4⟩ := gfv_bounds f.name m hfp
      have hfne : findMatches f.name ≠ [] := by
        intro hcon
        have := (gfv_none_iff f.name).mpr hcon
        rw [hfp] at this
        cases this
      subst hl1
      exact rotation_second_run E maj (sortByCtime files) _
        (by omega) hpw hax
        (by cases maj <;> simp [nonAxisVal] <;> omega)
        (by cases maj <;> simp [nonAxisVal] <;> omega)
        (Or.inl ⟨f, hfmem, hfne⟩)

/-- Claim C8, witness for the amended theorem: the two-file set
`file-0-0.txt` (older), `file.txt` (newer) rotates to `file-0-1.txt`,
`file-0-0.txt`, and rotating again reproduces exactly those names. -/
theorem C8_witness :
    ∃ l2, create_target_entries
        (renamedFiles [⟨"file-0-0.txt".toList, "file-0-1.txt".toList, ⟨0, 1⟩, 0⟩,
                       ⟨"file.txt".toList, "file-0-0.txt".toList, ⟨0, 0⟩, 1⟩])
        ("txt".toList) false = .ok l2 ∧
      l2.map (fun e => e.newName) =
        [(⟨"file-0-0.txt".toList, "file-0-1.txt".toList, ⟨0, 1⟩, 0⟩ : RenameEntry),
         ⟨"file.txt".toList, "file-0-0.txt".toList, ⟨0, 0⟩, 1⟩].map
          (fun e => e.newName) :=
  C8_idempotent [⟨"file-0-0.txt".toList, 0⟩, ⟨"file.txt".toList, 1⟩]
    ("txt".toList) false
    [⟨"file-0-0.txt".toList, "file-0-1.txt".toList, ⟨0, 1⟩, 0⟩,
     ⟨"file.txt".toList, "file-0-0.txt".toList, ⟨0, 0⟩, 1⟩]
    (by decide) (by rfl)

end Backupbot
